import Mathlib

/-!
Verification of the Telegram HTML formatting engine from
`src/content_bot/bot/formatters.py`: the sanitizer, validator, truncator and
chunker, together with the report dispatcher `format_process_report`.

Strings are modelled as `List Char` (`String.data`).  The Python regular
expressions used by the source are deterministic on their inputs, so each is
embedded as an explicit matching function:
  * `matchTag` models `re.match(r"</?([a-zA-Z]+)(?:\s[^>]*)?>", s)`;
  * `matchEntity` models `re.match(r"&(amp|lt|gt|quot|#\d+|#x[0-9a-fA-F]+);", s)`.
Python's `\s` and `\d` are modelled over their ASCII ranges (the tag names
themselves are exactly ASCII `[a-zA-Z]+` in both worlds).

The scanning loops consume at least one character per step; they are embedded
with an explicit fuel argument (fuel = length of the remaining input suffices),
which keeps every definition computable by the kernel.
-/

namespace ContentBot

/-- The whitelist `ALLOWED_TAGS = {"b", "i", "code", "pre", "a", "s", "u"}`. -/
def ALLOWED_TAGS : List String := ["b", "i", "code", "pre", "a", "s", "u"]

/-- ASCII model of Python's `\s` character class. -/
def isPySpace (c : Char) : Bool :=
  c = ' ' || c = '\t' || c = '\n' || c = '\r' || c = '\x0b' || c = '\x0c'

/-- Maximal leading run of ASCII letters, models `[a-zA-Z]+` greedy matching. -/
def takeAlpha : List Char → List Char × List Char
  | [] => ([], [])
  | c :: cs =>
    if c.isAlpha then
      let p := takeAlpha cs
      (c :: p.1, p.2)
    else ([], c :: cs)

/-- Split at the first `'>'`: models `[^>]*>` (greedy up to the closing angle).
Returns the characters before the first `'>'` and the characters after it. -/
def splitAtGt : List Char → Option (List Char × List Char)
  | [] => none
  | c :: cs =>
    if c = '>' then some ([], cs)
    else (splitAtGt cs).map (fun p => (c :: p.1, p.2))

/-- A successful match of the tag pattern: whether it is a closing tag, the
tag name as written, the full matched text, and the remaining input. -/
structure TagMatch where
  closing : Bool
  name : List Char
  matched : List Char
  rest : List Char
deriving DecidableEq, Repr

/-- After the tag name, the pattern allows either an immediate `>` or a
whitespace character followed by attributes up to the first `>`. -/
def tagFinish (closing : Bool) (pre nm : List Char) : List Char → Option TagMatch
  | [] => none
  | c :: r3 =>
    if c = '>' then some ⟨closing, nm, pre ++ nm ++ [c], r3⟩
    else if isPySpace c then
      (splitAtGt r3).map (fun p => ⟨closing, nm, pre ++ nm ++ c :: p.1 ++ ['>'], p.2⟩)
    else none

/-- Body of the tag pattern after the `<` (and optional `/`) have been
consumed: `([a-zA-Z]+)(?:\s[^>]*)?>`.  `pre` is the already-consumed marker. -/
def tagBody (closing : Bool) (pre : List Char) (r1 : List Char) : Option TagMatch :=
  if (takeAlpha r1).1.isEmpty then none
  else tagFinish closing pre (takeAlpha r1).1 (takeAlpha r1).2

/-- Models `re.match(r"</?([a-zA-Z]+)(?:\s[^>]*)?>", s)` at the head of `s`. -/
def matchTag : List Char → Option TagMatch
  | c0 :: c1 :: rest2 =>
    if c0 = '<' then
      if c1 = '/' then tagBody true ['<', '/'] rest2 else tagBody false ['<'] (c1 :: rest2)
    else none
  | _ => none

/-- Lowercased tag name, models `match.group(1).lower()` (names are ASCII). -/
def lowerName (nm : List Char) : String := String.mk (nm.map Char.toLower)

/-- Leading-pattern test: `startsWithL p s` iff `p` is an initial run of `s`. -/
def startsWithL : List Char → List Char → Bool
  | [], _ => true
  | _ :: _, [] => false
  | p :: ps, c :: cs => p = c && startsWithL ps cs

/-- Maximal leading run of ASCII decimal digits, models `\d+` (ASCII). -/
def takeDigits : List Char → List Char × List Char
  | [] => ([], [])
  | c :: cs =>
    if c.isDigit then
      let p := takeDigits cs
      (c :: p.1, p.2)
    else ([], c :: cs)

/-- Hexadecimal digit class `[0-9a-fA-F]`. -/
def isHexDig (c : Char) : Bool :=
  c.isDigit || ('a' ≤ c && c ≤ 'f') || ('A' ≤ c && c ≤ 'F')

/-- Maximal leading run of hexadecimal digits. -/
def takeHex : List Char → List Char × List Char
  | [] => ([], [])
  | c :: cs =>
    if isHexDig c then
      let p := takeHex cs
      (c :: p.1, p.2)
    else ([], c :: cs)

/-- Require a terminating `;` and build the full entity text `&<body>;`. -/
def endSemi (body : List Char) : List Char → Option (List Char × List Char)
  | [] => none
  | c :: r4 => if c = ';' then some ('&' :: body ++ [';'], r4) else none

/-- The `#\d+;` alternative, applied to the input after `&`s `#`. -/
def decEntity (r1 : List Char) : Option (List Char × List Char) :=
  if (takeDigits r1).1.isEmpty then none
  else endSemi ('#' :: (takeDigits r1).1) (takeDigits r1).2

/-- The `#x[0-9a-fA-F]+;` alternative, applied to the input after `&#x`. -/
def hexEntity (r2 : List Char) : Option (List Char × List Char) :=
  if (takeHex r2).1.isEmpty then none
  else endSemi ('#' :: 'x' :: (takeHex r2).1) (takeHex r2).2

/-- Numeric character references `#\d+;` and `#x[0-9a-fA-F]+;` (the decimal
alternative is tried first in the pattern, but the two cannot overlap since
`x` is not a decimal digit). -/
def numEntity : List Char → Option (List Char × List Char)
  | c1 :: c2 :: r2 =>
    if c1 = '#' then (if c2 = 'x' then hexEntity r2 else decEntity (c2 :: r2)) else none
  | _ => none

/-- Models `re.match(r"&(amp|lt|gt|quot|#\d+|#x[0-9a-fA-F]+);", s)` at the
head of `s`: returns the matched entity text and the remaining input. -/
def matchEntity : List Char → Option (List Char × List Char)
  | [] => none
  | c0 :: r =>
    if c0 = '&' then
      if startsWithL ("amp;".data) r then some ('&' :: ("amp;".data), r.drop 4)
      else if startsWithL ("lt;".data) r then some ('&' :: ("lt;".data), r.drop 3)
      else if startsWithL ("gt;".data) r then some ('&' :: ("gt;".data), r.drop 3)
      else if startsWithL ("quot;".data) r then some ('&' :: ("quot;".data), r.drop 5)
      else numEntity r
    else none

/-- Fueled scanner of `sanitize_telegram_html`'s while loop. -/
def sanitizeF : Nat → List Char → List Char
  | 0, s => s
  | _ + 1, [] => []
  | fuel + 1, c :: rest =>
    if c = '<' then
      match matchTag (c :: rest) with
      | some t =>
        if ALLOWED_TAGS.contains (lowerName t.name) then t.matched ++ sanitizeF fuel t.rest
        else ("&lt;".data) ++ sanitizeF fuel rest
      | none => ("&lt;".data) ++ sanitizeF fuel rest
    else if c = '>' then ("&gt;".data) ++ sanitizeF fuel rest
    else if c = '&' then
      match matchEntity (c :: rest) with
      | some (e, r) => e ++ sanitizeF fuel r
      | none => ("&amp;".data) ++ sanitizeF fuel rest
    else c :: sanitizeF fuel rest

/-- `sanitize_telegram_html` on character lists. -/
def sanitizeCore (s : List Char) : List Char := sanitizeF s.length s

/-- `sanitize_telegram_html(text)` from `formatters.py`. -/
def sanitize_telegram_html (s : String) : String := String.mk (sanitizeCore s.data)

/-- Fueled scanner of `validate_telegram_html`'s `finditer` loop; the stack
holds lowercased open-tag names, head = top of stack. -/
def validateF : Nat → List String → List Char → Bool
  | 0, stack, _ => stack.isEmpty
  | _ + 1, stack, [] => stack.isEmpty
  | fuel + 1, stack, c :: rest =>
    if c = '<' then
      match matchTag (c :: rest) with
      | some t =>
        if ALLOWED_TAGS.contains (lowerName t.name) then
          if t.closing then
            match stack with
            | top :: s' => if top = lowerName t.name then validateF fuel s' t.rest else false
            | [] => false
          else validateF fuel (lowerName t.name :: stack) t.rest
        else validateF fuel stack t.rest
      | none => validateF fuel stack rest
    else validateF fuel stack rest

/-- `validate_telegram_html` on character lists, with an explicit stack. -/
def validateCore (stack : List String) (s : List Char) : Bool := validateF s.length stack s

/-- `validate_telegram_html(text)` from `formatters.py`. -/
def validate_telegram_html (s : String) : Bool := validateCore [] s.data

/-- Fueled scanner of the tag-repair loop inside `truncate_html`: like the
validator but lenient — a close tag that does not match the top of the stack
is ignored instead of failing.  Returns the finally open tags, top first. -/
def repairF : Nat → List String → List Char → List String
  | 0, stack, _ => stack
  | _ + 1, stack, [] => stack
  | fuel + 1, stack, c :: rest =>
    if c = '<' then
      match matchTag (c :: rest) with
      | some t =>
        if ALLOWED_TAGS.contains (lowerName t.name) then
          if t.closing then
            match stack with
            | top :: s' =>
              if top = lowerName t.name then repairF fuel s' t.rest
              else repairF fuel stack t.rest
            | [] => repairF fuel stack t.rest
          else repairF fuel (lowerName t.name :: stack) t.rest
        else repairF fuel stack t.rest
      | none => repairF fuel stack rest
    else repairF fuel stack rest

/-- The open-tag scan `truncate_html` performs over the truncated prefix. -/
def repairCore (stack : List String) (s : List Char) : List String := repairF s.length stack s

/-- Closing tags, Python's joined `f"</{tag}>" for tag in reversed(open_tags)`; the
stack is stored top-first, which is exactly `reversed` of Python's list. -/
def closeAll (stack : List String) : List Char :=
  (stack.map (fun t => ("</" ++ t ++ ">").data)).flatten

/-- Python slice-index normalisation for `text[:i]` and for the `end`
argument of `str.rfind`: negative indices count from the end, clamped at 0;
positive indices are clamped at the length. -/
def pySliceEnd (len : Nat) (i : Int) : Nat :=
  if i < 0 then len - (-i).toNat else min i.toNat len

/-- `text.rfind(c, 0, e)` for a single character and a normalised end `e`:
the largest index `< e` holding `c`, or `-1`. -/
def rfindIdx (s : List Char) (c : Char) (e : Nat) : Int :=
  match ((s.take e).reverse).findIdx? (fun x => x = c) with
  | some j => ((s.take e).length - 1 - j : Nat)
  | none => -1

/-- The cut index of `truncate_html`: start from `max_length - 50` (an `int`
in Python, so it may be negative and then counts from the end of the string);
if the rightmost `<` before the cut comes after the rightmost `>`, move the
cut to that `<`. -/
def cutLen (text : List Char) (maxLength : Nat) : Nat :=
  let cut0 : Int := (maxLength : Int) - 50
  let e := pySliceEnd text.length cut0
  let lastOpen := rfindIdx text '<' e
  let lastClose := rfindIdx text '>' e
  if lastClose < lastOpen then lastOpen.toNat else e

/-- `truncate_html(text, max_length)` on character lists. -/
def truncCore (text : List Char) (maxLength : Nat) : List Char :=
  if text.length ≤ maxLength then text
  else
    let truncated := text.take (cutLen text maxLength)
    truncated ++ ("...".data) ++ closeAll (repairCore [] truncated)

/-- `truncate_html(text, max_length)` from `formatters.py`. -/
def truncate_html (s : String) (maxLength : Nat) : String :=
  String.mk (truncCore s.data maxLength)

/-- One character of Python's `html.escape(s)` (with its default
`quote=True`): `&`, `<`, `>`, `"` and `'` are replaced by entities. -/
def escChar (c : Char) : List Char :=
  if c = '&' then "&amp;".data
  else if c = '<' then "&lt;".data
  else if c = '>' then "&gt;".data
  else if c = '"' then "&quot;".data
  else if c = '\'' then "&#x27;".data
  else [c]

/-- Python's `html.escape` with default quoting, on character lists. -/
def htmlEscapeCore (s : List Char) : List Char := (s.map escChar).flatten

/-- Python's `html.escape` with default quoting. -/
def htmlEscape (s : String) : String := String.mk (htmlEscapeCore s.data)

/-- The result record consumed by `format_process_report`: a Python dict that
may carry an `"error"` key and/or a `"report"` key.  `some v` models key
presence with (string) value `v`; the code applies `str()` to the error and
treats the report as a string. -/
structure Report where
  error : Option String
  report : Option String
deriving DecidableEq, Repr

/-- `format_process_report(report)` from `formatters.py`. -/
def format_process_report (r : Report) : String :=
  match r.error with
  | some e => "Error: <b>" ++ htmlEscape e ++ "</b>"
  | none =>
    match r.report with
    | some raw =>
      let sanitized := sanitize_telegram_html raw
      if validate_telegram_html sanitized = false then htmlEscape raw
      else truncate_html sanitized 4096
    | none => "Done"

/-- The record-boundary marker of the chunker: `"<b>Seed #"`. -/
def seedMarker : List Char := "<b>Seed #".data

/-- Models `re.split(r"(?=<b>Seed #)", text)`: cut before every position
where the marker starts (a cut at position 0 yields a leading empty piece). -/
def splitSeedCore (cur : List Char) : List Char → List (List Char)
  | [] => [cur]
  | c :: rest =>
    if startsWithL seedMarker (c :: rest) then cur :: splitSeedCore [c] rest
    else splitSeedCore (cur ++ [c]) rest

/-- Python's `str.strip()` over the modelled whitespace class. -/
def stripCore (s : List Char) : List Char :=
  ((s.dropWhile isPySpace).reverse.dropWhile isPySpace).reverse

/-- The greedy accumulation loop of `split_html_report` over the chunk list:
state is `(parts, current)`. -/
def splitLoop (maxLength : Nat) : List (List Char) × List Char → List (List Char) → List (List Char) × List Char
  | st, [] => st
  | (parts, current), chunk :: rest =>
    if chunk.isEmpty then splitLoop maxLength (parts, current) rest
    else if current.length + chunk.length ≤ maxLength then
      splitLoop maxLength (parts, current ++ chunk) rest
    else
      splitLoop maxLength ((if current.isEmpty then parts else parts ++ [stripCore current]), chunk) rest

/-- Final `if current: parts.append(current.strip())` of the loop. -/
def finishParts (pc : List (List Char) × List Char) : List (List Char) :=
  if pc.2.isEmpty then pc.1 else pc.1 ++ [stripCore pc.2]

/-- The `parts` list of `split_html_report` before the truncation post-pass. -/
def seedParts (text : List Char) (maxLength : Nat) : List (List Char) :=
  finishParts (splitLoop maxLength ([], []) (splitSeedCore [] text))

/-- `split_html_report(text, max_length)` on character lists. -/
def splitCore (text : List Char) (maxLength : Nat) : List (List Char) :=
  if text.length ≤ maxLength then [text]
  else
    let parts := seedParts text maxLength
    if parts.isEmpty then [truncCore text maxLength]
    else parts.map (fun p => if p.length ≤ maxLength then p else truncCore p maxLength)

/-- `split_html_report(text, max_length)` from `formatters.py`. -/
def split_html_report (s : String) (maxLength : Nat) : List String :=
  (splitCore s.data maxLength).map String.mk

/-- Safety scanner formalising the output guarantee of the sanitizer: every
`<` must begin a whitelisted tag match, every `&` must begin a recognised
entity, and no bare `>` may occur; all other characters are skipped. -/
def safeOutputF : Nat → List Char → Bool
  | 0, _ => true
  | _ + 1, [] => true
  | fuel + 1, c :: rest =>
    if c = '<' then
      match matchTag (c :: rest) with
      | some t => if ALLOWED_TAGS.contains (lowerName t.name) then safeOutputF fuel t.rest else false
      | none => false
    else if c = '>' then false
    else if c = '&' then
      match matchEntity (c :: rest) with
      | some (_, r) => safeOutputF fuel r
      | none => false
    else safeOutputF fuel rest

/-- `safeOutputCore s` holds iff `s` contains no `<`, `>` or `&` outside a
whitelisted tag or a recognised character entity. -/
def safeOutputCore (s : List Char) : Bool := safeOutputF s.length s

/-- Strict token scan used to describe well-tokenised prefixes: every `<`
must begin a tag match, and whitelisted close tags must match the stack top
(LIFO); returns the resulting stack.  Non-whitelisted tags are skipped, as in
the validator. -/
def strictScanF : Nat → List String → List Char → Option (List String)
  | 0, stack, _ => some stack
  | _ + 1, stack, [] => some stack
  | fuel + 1, stack, c :: rest =>
    if c = '<' then
      match matchTag (c :: rest) with
      | some t =>
        if ALLOWED_TAGS.contains (lowerName t.name) then
          if t.closing then
            match stack with
            | top :: s' => if top = lowerName t.name then strictScanF fuel s' t.rest else none
            | [] => none
          else strictScanF fuel (lowerName t.name :: stack) t.rest
        else strictScanF fuel stack t.rest
      | none => none
    else strictScanF fuel stack rest

/-- Strict token scan, fuel instantiated. -/
def strictScan (stack : List String) (s : List Char) : Option (List String) :=
  strictScanF s.length stack s

/-! ## Lemmas about the embedded pattern matchers -/

theorem takeAlpha_eq : ∀ l a b, takeAlpha l = (a, b) → l = a ++ b := by
  intro l
  induction l with
  | nil =>
    intro a b h
    simp only [takeAlpha, Prod.mk.injEq] at h
    obtain ⟨rfl, rfl⟩ := h
    rfl
  | cons c cs ih =>
    intro a b h
    simp only [takeAlpha] at h
    split at h
    · simp only [Prod.mk.injEq] at h
      obtain ⟨rfl, rfl⟩ := h
      simp [← ih (takeAlpha cs).1 (takeAlpha cs).2 rfl]
    · simp only [Prod.mk.injEq] at h
      obtain ⟨rfl, rfl⟩ := h
      rfl

theorem takeAlpha_alpha : ∀ l a b, takeAlpha l = (a, b) → ∀ c ∈ a, c.isAlpha = true := by
  intro l
  induction l with
  | nil =>
    intro a b h
    simp only [takeAlpha, Prod.mk.injEq] at h
    obtain ⟨rfl, rfl⟩ := h
    intro x hx
    simp at hx
  | cons c cs ih =>
    intro a b h
    simp only [takeAlpha] at h
    split at h
    · rename_i hca
      simp only [Prod.mk.injEq] at h
      obtain ⟨rfl, rfl⟩ := h
      intro x hx
      rcases List.mem_cons.mp hx with rfl | hx
      · exact hca
      · exact ih (takeAlpha cs).1 (takeAlpha cs).2 rfl x hx
    · simp only [Prod.mk.injEq] at h
      obtain ⟨rfl, rfl⟩ := h
      intro x hx
      simp at hx

theorem takeAlpha_stable : ∀ a, (∀ c ∈ a, c.isAlpha = true) → ∀ d u, d.isAlpha = false →
    takeAlpha (a ++ d :: u) = (a, d :: u) := by
  intro a
  induction a with
  | nil => intro _ d u hd; simp [takeAlpha, hd]
  | cons c cs ih =>
    intro h d u hd
    have hc : c.isAlpha = true := h c (by simp)
    simp [takeAlpha, hc, ih (fun x hx => h x (by simp [hx])) d u hd]

theorem splitAtGt_eq : ∀ l a b, splitAtGt l = some (a, b) → l = a ++ '>' :: b ∧ '>' ∉ a := by
  intro l
  induction l with
  | nil => intro a b h; simp [splitAtGt] at h
  | cons c cs ih =>
    intro a b h
    simp only [splitAtGt] at h
    split at h
    · rename_i hc
      simp only [Option.some.injEq, Prod.mk.injEq] at h
      obtain ⟨rfl, rfl⟩ := h
      subst hc
      exact ⟨rfl, by simp⟩
    · rename_i hc
      cases hsg : splitAtGt cs with
      | none => rw [hsg] at h; simp at h
      | some p =>
        obtain ⟨a', b'⟩ := p
        rw [hsg] at h
        simp only [Option.map_some', Option.some.injEq, Prod.mk.injEq] at h
        obtain ⟨rfl, rfl⟩ := h
        obtain ⟨he, hn⟩ := ih a' b' hsg
        refine ⟨by simp [he], ?_⟩
        simp only [List.mem_cons, not_or]
        exact ⟨fun hgt => hc hgt.symm, hn⟩

theorem splitAtGt_stable : ∀ a, '>' ∉ a → ∀ u, splitAtGt (a ++ '>' :: u) = some (a, u) := by
  intro a
  induction a with
  | nil => intro _ u; simp [splitAtGt]
  | cons c cs ih =>
    intro h u
    have hc : ¬ (c = '>') := fun hc => h (by simp [hc])
    simp [splitAtGt, hc, ih (fun hm => h (by simp [hm])) u]

theorem isPySpace_not_alpha (c : Char) (h : isPySpace c = true) : c.isAlpha = false := by
  simp only [isPySpace, Bool.or_eq_true, decide_eq_true_eq] at h
  rcases h with ((((h | h) | h) | h) | h) | h <;> subst h <;> decide

theorem gt_not_alpha : ('>').isAlpha = false := by decide

theorem tagBody_unfold (cl : Bool) (pre r1 nm r2 : List Char)
    (hta : takeAlpha r1 = (nm, r2)) (hne : nm.isEmpty = false) :
    tagBody cl pre r1 = tagFinish cl pre nm r2 := by
  simp [tagBody, hta, hne]

/-- Structure and re-match stability of a successful `tagBody` match. -/
theorem tagBody_spec (cl : Bool) (pre r1 : List Char) (t : TagMatch)
    (h : tagBody cl pre r1 = some t) :
    t.closing = cl ∧
    ∃ mid, (∃ hd tl, mid = hd :: tl ∧ hd.isAlpha = true) ∧
      t.matched = pre ++ mid ∧ r1 = mid ++ t.rest ∧
      (∀ u, tagBody cl pre (mid ++ u) = some ⟨cl, t.name, pre ++ mid, u⟩) := by
  rcases hta : takeAlpha r1 with ⟨nm, r2⟩
  have halpha : ∀ c ∈ nm, c.isAlpha = true := takeAlpha_alpha r1 nm r2 hta
  have hr1 : r1 = nm ++ r2 := takeAlpha_eq r1 nm r2 hta
  cases nm with
  | nil => rw [tagBody, hta] at h; simp at h
  | cons n0 ntl =>
    have hn0 : n0.isAlpha = true := halpha n0 (by simp)
    rw [tagBody_unfold cl pre r1 (n0 :: ntl) r2 hta (by simp)] at h
    cases r2 with
    | nil => simp [tagFinish] at h
    | cons c r3 =>
      simp only [tagFinish] at h
      by_cases hcgt : c = '>'
      · rw [if_pos hcgt] at h
        obtain rfl := Option.some.inj h
        subst hcgt
        refine ⟨rfl, (n0 :: ntl) ++ ['>'], ⟨n0, ntl ++ ['>'], by simp, hn0⟩, by simp, by simp [hr1], ?_⟩
        intro u
        have hne2 : ((n0 :: ntl) ++ ['>']) ++ u = (n0 :: ntl) ++ '>' :: u := by simp
        rw [hne2]
        have hta2 : takeAlpha ((n0 :: ntl) ++ '>' :: u) = (n0 :: ntl, '>' :: u) :=
          takeAlpha_stable (n0 :: ntl) halpha '>' u gt_not_alpha
        rw [tagBody_unfold cl pre _ (n0 :: ntl) ('>' :: u) hta2 (by simp)]
        simp [tagFinish]
      · rw [if_neg hcgt] at h
        by_cases hsp : isPySpace c
        · rw [if_pos hsp] at h
          cases hsg : splitAtGt r3 with
          | none => rw [hsg] at h; simp at h
          | some p =>
            obtain ⟨attrs, r4⟩ := p
            rw [hsg] at h
            simp only [Option.map_some', Option.some.injEq] at h
            obtain rfl := h
            obtain ⟨hre, hni⟩ := splitAtGt_eq r3 attrs r4 hsg
            refine ⟨rfl, (n0 :: ntl) ++ c :: attrs ++ ['>'],
              ⟨n0, ntl ++ c :: attrs ++ ['>'], by simp, hn0⟩, by simp, by simp [hr1, hre], ?_⟩
            intro u
            have hnca : c.isAlpha = false := isPySpace_not_alpha c hsp
            have hne2 : ((n0 :: ntl) ++ c :: attrs ++ ['>']) ++ u =
                (n0 :: ntl) ++ c :: (attrs ++ '>' :: u) := by simp
            rw [hne2]
            have hta2 : takeAlpha ((n0 :: ntl) ++ c :: (attrs ++ '>' :: u)) =
                (n0 :: ntl, c :: (attrs ++ '>' :: u)) :=
              takeAlpha_stable (n0 :: ntl) halpha c (attrs ++ '>' :: u) hnca
            rw [tagBody_unfold cl pre _ (n0 :: ntl) (c :: (attrs ++ '>' :: u)) hta2 (by simp)]
            simp only [tagFinish]
            rw [if_neg hcgt, if_pos hsp, splitAtGt_stable attrs hni u]
            simp
        · rw [if_neg hsp] at h
          simp at h

/-- Structure and re-match stability of a successful `matchTag`. -/
theorem matchTag_spec (s : List Char) (t : TagMatch) (h : matchTag s = some t) :
    s = t.matched ++ t.rest ∧ (∃ tl, t.matched = '<' :: tl) ∧
    (∀ u, matchTag (t.matched ++ u) = some ⟨t.closing, t.name, t.matched, u⟩) := by
  cases s with
  | nil => simp [matchTag] at h
  | cons c0 s1 =>
    cases s1 with
    | nil => simp [matchTag] at h
    | cons c1 rest2 =>
      simp only [matchTag] at h
      by_cases hc0 : c0 = '<'
      case neg => rw [if_neg hc0] at h; simp at h
      rw [if_pos hc0] at h
      subst hc0
      by_cases hc1 : c1 = '/'
      · rw [if_pos hc1] at h
        subst hc1
        obtain ⟨hcl, mid, ⟨hd, tl, hmid, hhd⟩, hmt, hrest, hstable⟩ :=
          tagBody_spec true ['<', '/'] rest2 t h
        refine ⟨by simp [hmt, hrest], ⟨'/' :: mid, by simp [hmt]⟩, ?_⟩
        intro u
        rw [hmt]
        have hform : ((['<', '/'] ++ mid) ++ u) = '<' :: '/' :: (mid ++ u) := by simp
        rw [hform]
        simp only [matchTag, if_true]
        rw [hstable u]
        simp [hcl, hmt]
      · rw [if_neg hc1] at h
        obtain ⟨hcl, mid, ⟨hd, tl, hmid, hhd⟩, hmt, hrest, hstable⟩ :=
          tagBody_spec false ['<'] (c1 :: rest2) t h
        refine ⟨by simp [hmt, hrest], ⟨mid, by simp [hmt]⟩, ?_⟩
        intro u
        rw [hmt]
        subst hmid
        have hform : ((['<'] ++ hd :: tl) ++ u) = '<' :: hd :: (tl ++ u) := by simp
        rw [hform]
        have hhd' : ¬ (hd = '/') := by
          intro hh
          rw [hh] at hhd
          exact absurd hhd (by decide)
        simp only [matchTag, if_true]
        rw [if_neg hhd', ← List.cons_append, hstable u]
        simp [hcl, hmt]

theorem matchTag_rest_lt (s : List Char) (t : TagMatch) (h : matchTag s = some t) :
    t.rest.length < s.length := by
  obtain ⟨hs, ⟨tl, hmt⟩, _⟩ := matchTag_spec s t h
  rw [hs, hmt]
  simp
  omega

theorem takeDigits_eq : ∀ l a b, takeDigits l = (a, b) → l = a ++ b := by
  intro l
  induction l with
  | nil =>
    intro a b h
    simp only [takeDigits, Prod.mk.injEq] at h
    obtain ⟨rfl, rfl⟩ := h
    rfl
  | cons c cs ih =>
    intro a b h
    simp only [takeDigits] at h
    split at h
    · simp only [Prod.mk.injEq] at h
      obtain ⟨rfl, rfl⟩ := h
      simp [← ih (takeDigits cs).1 (takeDigits cs).2 rfl]
    · simp only [Prod.mk.injEq] at h
      obtain ⟨rfl, rfl⟩ := h
      rfl

theorem takeDigits_digit : ∀ l a b, takeDigits l = (a, b) → ∀ c ∈ a, c.isDigit = true := by
  intro l
  induction l with
  | nil =>
    intro a b h
    simp only [takeDigits, Prod.mk.injEq] at h
    obtain ⟨rfl, rfl⟩ := h
    intro x hx
    simp at hx
  | cons c cs ih =>
    intro a b h
    simp only [takeDigits] at h
    split at h
    · rename_i hca
      simp only [Prod.mk.injEq] at h
      obtain ⟨rfl, rfl⟩ := h
      intro x hx
      rcases List.mem_cons.mp hx with rfl | hx
      · exact hca
      · exact ih (takeDigits cs).1 (takeDigits cs).2 rfl x hx
    · simp only [Prod.mk.injEq] at h
      obtain ⟨rfl, rfl⟩ := h
      intro x hx
      simp at hx

theorem takeDigits_stable : ∀ a, (∀ c ∈ a, c.isDigit = true) → ∀ d u, d.isDigit = false →
    takeDigits (a ++ d :: u) = (a, d :: u) := by
  intro a
  induction a with
  | nil => intro _ d u hd; simp [takeDigits, hd]
  | cons c cs ih =>
    intro h d u hd
    have hc : c.isDigit = true := h c (by simp)
    simp [takeDigits, hc, ih (fun x hx => h x (by simp [hx])) d u hd]

theorem takeHex_eq : ∀ l a b, takeHex l = (a, b) → l = a ++ b := by
  intro l
  induction l with
  | nil =>
    intro a b h
    simp only [takeHex, Prod.mk.injEq] at h
    obtain ⟨rfl, rfl⟩ := h
    rfl
  | cons c cs ih =>
    intro a b h
    simp only [takeHex] at h
    split at h
    · simp only [Prod.mk.injEq] at h
      obtain ⟨rfl, rfl⟩ := h
      simp [← ih (takeHex cs).1 (takeHex cs).2 rfl]
    · simp only [Prod.mk.injEq] at h
      obtain ⟨rfl, rfl⟩ := h
      rfl

theorem takeHex_hex : ∀ l a b, takeHex l = (a, b) → ∀ c ∈ a, isHexDig c = true := by
  intro l
  induction l with
  | nil =>
    intro a b h
    simp only [takeHex, Prod.mk.injEq] at h
    obtain ⟨rfl, rfl⟩ := h
    intro x hx
    simp at hx
  | cons c cs ih =>
    intro a b h
    simp only [takeHex] at h
    split at h
    · rename_i hca
      simp only [Prod.mk.injEq] at h
      obtain ⟨rfl, rfl⟩ := h
      intro x hx
      rcases List.mem_cons.mp hx with rfl | hx
      · exact hca
      · exact ih (takeHex cs).1 (takeHex cs).2 rfl x hx
    · simp only [Prod.mk.injEq] at h
      obtain ⟨rfl, rfl⟩ := h
      intro x hx
      simp at hx

theorem takeHex_stable : ∀ a, (∀ c ∈ a, isHexDig c = true) → ∀ d u, isHexDig d = false →
    takeHex (a ++ d :: u) = (a, d :: u) := by
  intro a
  induction a with
  | nil => intro _ d u hd; simp [takeHex, hd]
  | cons c cs ih =>
    intro h d u hd
    have hc : isHexDig c = true := h c (by simp)
    simp [takeHex, hc, ih (fun x hx => h x (by simp [hx])) d u hd]

theorem startsWithL_eq : ∀ p s, startsWithL p s = true → s = p ++ s.drop p.length := by
  intro p
  induction p with
  | nil => intro s _; simp
  | cons x xs ih =>
    intro s h
    cases s with
    | nil => simp [startsWithL] at h
    | cons c cs =>
      simp only [startsWithL, Bool.and_eq_true, decide_eq_true_eq] at h
      obtain ⟨rfl, h2⟩ := h
      simpa using ih cs h2

theorem digit_ne_x (c : Char) (h : c.isDigit = true) : ¬ (c = 'x') := by
  intro hx
  rw [hx] at h
  exact absurd h (by decide)

theorem semi_not_digit : (';').isDigit = false := by decide

theorem semi_not_hex : isHexDig ';' = false := by decide

/-- Structure and re-match stability of a successful `matchEntity`. -/
theorem matchEntity_spec (s e r : List Char) (h : matchEntity s = some (e, r)) :
    s = e ++ r ∧ (∃ tl, e = '&' :: tl) ∧ (∀ u, matchEntity (e ++ u) = some (e, u)) := by
  cases s with
  | nil => simp [matchEntity] at h
  | cons c0 rr =>
    simp only [matchEntity] at h
    by_cases hc0 : c0 = '&'
    case neg => rw [if_neg hc0] at h; simp at h
    rw [if_pos hc0] at h
    subst hc0
    by_cases h1 : startsWithL ("amp;".data) rr
    · rw [if_pos h1] at h
      simp only [Option.some.injEq, Prod.mk.injEq] at h
      obtain ⟨rfl, rfl⟩ := h
      have hs := startsWithL_eq ("amp;".data) rr h1
      have hlen : ("amp;".data).length = 4 := rfl
      rw [hlen] at hs
      refine ⟨by rw [List.cons_append, ← hs], ⟨"amp;".data, rfl⟩, ?_⟩
      intro u
      have hd : ("amp;".data) = ['a', 'm', 'p', ';'] := rfl
      simp [matchEntity, startsWithL, hd]
    rw [if_neg h1] at h
    by_cases h2 : startsWithL ("lt;".data) rr
    · rw [if_pos h2] at h
      simp only [Option.some.injEq, Prod.mk.injEq] at h
      obtain ⟨rfl, rfl⟩ := h
      have hs := startsWithL_eq ("lt;".data) rr h2
      have hlen : ("lt;".data).length = 3 := rfl
      rw [hlen] at hs
      refine ⟨by rw [List.cons_append, ← hs], ⟨"lt;".data, rfl⟩, ?_⟩
      intro u
      have hd : ("lt;".data) = ['l', 't', ';'] := rfl
      simp [matchEntity, startsWithL, hd]
    rw [if_neg h2] at h
    by_cases h3 : startsWithL ("gt;".data) rr
    · rw [if_pos h3] at h
      simp only [Option.some.injEq, Prod.mk.injEq] at h
      obtain ⟨rfl, rfl⟩ := h
      have hs := startsWithL_eq ("gt;".data) rr h3
      have hlen : ("gt;".data).length = 3 := rfl
      rw [hlen] at hs
      refine ⟨by rw [List.cons_append, ← hs], ⟨"gt;".data, rfl⟩, ?_⟩
      intro u
      have hd : ("gt;".data) = ['g', 't', ';'] := rfl
      simp [matchEntity, startsWithL, hd]
    rw [if_neg h3] at h
    by_cases h4 : startsWithL ("quot;".data) rr
    · rw [if_pos h4] at h
      simp only [Option.some.injEq, Prod.mk.injEq] at h
      obtain ⟨rfl, rfl⟩ := h
      have hs := startsWithL_eq ("quot;".data) rr h4
      have hlen : ("quot;".data).length = 5 := rfl
      rw [hlen] at hs
      refine ⟨by rw [List.cons_append, ← hs], ⟨"quot;".data, rfl⟩, ?_⟩
      intro u
      have hd : ("quot;".data) = ['q', 'u', 'o', 't', ';'] := rfl
      simp [matchEntity, startsWithL, hd]
    rw [if_neg h4] at h
    cases rr with
    | nil => simp [numEntity] at h
    | cons c1 rr1 =>
      cases rr1 with
      | nil => simp [numEntity] at h
      | cons c2 r2 =>
        simp only [numEntity] at h
        by_cases hc1 : c1 = '#'
        case neg => rw [if_neg hc1] at h; simp at h
        rw [if_pos hc1] at h
        subst hc1
        by_cases hc2 : c2 = 'x'
        · rw [if_pos hc2] at h
          subst hc2
          rcases hth : takeHex r2 with ⟨hx, r3⟩
          have hr2 : r2 = hx ++ r3 := takeHex_eq r2 hx r3 hth
          have hhex : ∀ c ∈ hx, isHexDig c = true := takeHex_hex r2 hx r3 hth
          simp only [hexEntity, hth] at h
          cases hx with
          | nil => simp at h
          | cons d hx' =>
            rw [if_neg (by simp)] at h
            cases r3 with
            | nil => simp [endSemi] at h
            | cons c3 r4 =>
              simp only [endSemi] at h
              by_cases hc3 : c3 = ';'
              case neg => rw [if_neg hc3] at h; simp at h
              rw [if_pos hc3] at h
              subst hc3
              simp only [Option.some.injEq, Prod.mk.injEq] at h
              obtain ⟨rfl, rfl⟩ := h
              refine ⟨by simp [hr2], ⟨_, rfl⟩, ?_⟩
              intro u
              have hth2 : takeHex (d :: (hx' ++ ';' :: u)) = (d :: hx', ';' :: u) := by
                have hst := takeHex_stable (d :: hx') hhex ';' u semi_not_hex
                simpa using hst
              simp [matchEntity, startsWithL, numEntity, hexEntity, endSemi, hth2]
        · rw [if_neg hc2] at h
          rcases htd : takeDigits (c2 :: r2) with ⟨ds, r3⟩
          have hr2 : c2 :: r2 = ds ++ r3 := takeDigits_eq (c2 :: r2) ds r3 htd
          have hdig : ∀ c ∈ ds, c.isDigit = true := takeDigits_digit (c2 :: r2) ds r3 htd
          simp only [decEntity, htd] at h
          cases ds with
          | nil => simp at h
          | cons d ds' =>
            rw [if_neg (by simp)] at h
            cases r3 with
            | nil => simp [endSemi] at h
            | cons c3 r4 =>
              simp only [endSemi] at h
              by_cases hc3 : c3 = ';'
              case neg => rw [if_neg hc3] at h; simp at h
              rw [if_pos hc3] at h
              subst hc3
              simp only [Option.some.injEq, Prod.mk.injEq] at h
              obtain ⟨rfl, rfl⟩ := h
              refine ⟨by simp [hr2], ⟨_, rfl⟩, ?_⟩
              intro u
              have htd2 : takeDigits (d :: (ds' ++ ';' :: u)) = (d :: ds', ';' :: u) := by
                have hst := takeDigits_stable (d :: ds') hdig ';' u semi_not_digit
                simpa using hst
              have hdx : ¬ (d = 'x') := digit_ne_x d (hdig d (by simp))
              simp [matchEntity, startsWithL, numEntity, decEntity, endSemi, htd2, hdx]

theorem matchEntity_rest_lt (s e r : List Char) (h : matchEntity s = some (e, r)) :
    r.length < s.length := by
  obtain ⟨hs, ⟨tl, he⟩, _⟩ := matchEntity_spec s e r h
  rw [hs, he]
  simp
  omega

/-! ## Fuel irrelevance: any fuel at least the input length gives the same
result, so the `Core` wrappers are well defined one-step unfoldable. -/

theorem sanitizeF_irrel : ∀ f1 f2 s, s.length ≤ f1 → s.length ≤ f2 →
    sanitizeF f1 s = sanitizeF f2 s := by
  intro f1
  induction f1 with
  | zero =>
    intro f2 s h1 _
    have hnil : s = [] := List.eq_nil_of_length_eq_zero (Nat.le_zero.mp h1)
    subst hnil
    cases f2 <;> rfl
  | succ f ih =>
    intro f2 s h1 h2
    cases s with
    | nil => cases f2 <;> rfl
    | cons c rest =>
      cases f2 with
      | zero => simp at h2
      | succ f2' =>
        have hr : rest.length ≤ f := by simpa using h1
        have hr2 : rest.length ≤ f2' := by simpa using h2
        simp only [sanitizeF]
        split
        · split
          · rename_i t hm
            have hlt : t.rest.length < rest.length + 1 := by
              simpa using matchTag_rest_lt (c :: rest) t hm
            rw [ih f2' t.rest (by omega) (by omega), ih f2' rest hr hr2]
          · rw [ih f2' rest hr hr2]
        · split
          · rw [ih f2' rest hr hr2]
          · split
            · split
              · rename_i e r hme
                have hlt : r.length < rest.length + 1 := by
                  simpa using matchEntity_rest_lt (c :: rest) e r hme
                rw [ih f2' r (by omega) (by omega)]
              · rw [ih f2' rest hr hr2]
            · rw [ih f2' rest hr hr2]

theorem validateF_irrel : ∀ f1 f2 stack s, s.length ≤ f1 → s.length ≤ f2 →
    validateF f1 stack s = validateF f2 stack s := by
  intro f1
  induction f1 with
  | zero =>
    intro f2 stack s h1 _
    have hnil : s = [] := List.eq_nil_of_length_eq_zero (Nat.le_zero.mp h1)
    subst hnil
    cases f2 <;> rfl
  | succ f ih =>
    intro f2 stack s h1 h2
    cases s with
    | nil => cases f2 <;> rfl
    | cons c rest =>
      cases f2 with
      | zero => simp at h2
      | succ f2' =>
        have hr : rest.length ≤ f := by simpa using h1
        have hr2 : rest.length ≤ f2' := by simpa using h2
        simp only [validateF]
        split
        · split
          · rename_i t hm
            have hlt : t.rest.length < rest.length + 1 := by
              simpa using matchTag_rest_lt (c :: rest) t hm
            split
            · split
              · split
                · split
                  · rw [ih f2' _ t.rest (by omega) (by omega)]
                  · rfl
                · rfl
              · rw [ih f2' _ t.rest (by omega) (by omega)]
            · rw [ih f2' _ t.rest (by omega) (by omega)]
          · rw [ih f2' stack rest hr hr2]
        · rw [ih f2' stack rest hr hr2]

theorem repairF_irrel : ∀ f1 f2 stack s, s.length ≤ f1 → s.length ≤ f2 →
    repairF f1 stack s = repairF f2 stack s := by
  intro f1
  induction f1 with
  | zero =>
    intro f2 stack s h1 _
    have hnil : s = [] := List.eq_nil_of_length_eq_zero (Nat.le_zero.mp h1)
    subst hnil
    cases f2 <;> rfl
  | succ f ih =>
    intro f2 stack s h1 h2
    cases s with
    | nil => cases f2 <;> rfl
    | cons c rest =>
      cases f2 with
      | zero => simp at h2
      | succ f2' =>
        have hr : rest.length ≤ f := by simpa using h1
        have hr2 : rest.length ≤ f2' := by simpa using h2
        simp only [repairF]
        split
        · split
          · rename_i t hm
            have hlt : t.rest.length < rest.length + 1 := by
              simpa using matchTag_rest_lt (c :: rest) t hm
            split
            · split
              · split
                · split
                  · rw [ih f2' _ t.rest (by omega) (by omega)]
                  · rw [ih f2' _ t.rest (by omega) (by omega)]
                · rw [ih f2' _ t.rest (by omega) (by omega)]
              · rw [ih f2' _ t.rest (by omega) (by omega)]
            · rw [ih f2' _ t.rest (by omega) (by omega)]
          · rw [ih f2' stack rest hr hr2]
        · rw [ih f2' stack rest hr hr2]

theorem strictScanF_irrel : ∀ f1 f2 stack s, s.length ≤ f1 → s.length ≤ f2 →
    strictScanF f1 stack s = strictScanF f2 stack s := by
  intro f1
  induction f1 with
  | zero =>
    intro f2 stack s h1 _
    have hnil : s = [] := List.eq_nil_of_length_eq_zero (Nat.le_zero.mp h1)
    subst hnil
    cases f2 <;> rfl
  | succ f ih =>
    intro f2 stack s h1 h2
    cases s with
    | nil => cases f2 <;> rfl
    | cons c rest =>
      cases f2 with
      | zero => simp at h2
      | succ f2' =>
        have hr : rest.length ≤ f := by simpa using h1
        have hr2 : rest.length ≤ f2' := by simpa using h2
        simp only [strictScanF]
        split
        · split
          · rename_i t hm
            have hlt : t.rest.length < rest.length + 1 := by
              simpa using matchTag_rest_lt (c :: rest) t hm
            split
            · split
              · split
                · split
                  · rw [ih f2' _ t.rest (by omega) (by omega)]
                  · rfl
                · rfl
              · rw [ih f2' _ t.rest (by omega) (by omega)]
            · rw [ih f2' _ t.rest (by omega) (by omega)]
          · rfl
        · rw [ih f2' stack rest hr hr2]

theorem safeOutputF_irrel : ∀ f1 f2 s, s.length ≤ f1 → s.length ≤ f2 →
    safeOutputF f1 s = safeOutputF f2 s := by
  intro f1
  induction f1 with
  | zero =>
    intro f2 s h1 _
    have hnil : s = [] := List.eq_nil_of_length_eq_zero (Nat.le_zero.mp h1)
    subst hnil
    cases f2 <;> rfl
  | succ f ih =>
    intro f2 s h1 h2
    cases s with
    | nil => cases f2 <;> rfl
    | cons c rest =>
      cases f2 with
      | zero => simp at h2
      | succ f2' =>
        have hr : rest.length ≤ f := by simpa using h1
        have hr2 : rest.length ≤ f2' := by simpa using h2
        simp only [safeOutputF]
        split
        · split
          · rename_i t hm
            have hlt : t.rest.length < rest.length + 1 := by
              simpa using matchTag_rest_lt (c :: rest) t hm
            split
            · rw [ih f2' t.rest (by omega) (by omega)]
            · rfl
          · rfl
        · split
          · rfl
          · split
            · split
              · rename_i e r hme
                have hlt : r.length < rest.length + 1 := by
                  simpa using matchEntity_rest_lt (c :: rest) e r hme
                rw [ih f2' r (by omega) (by omega)]
              · rfl
            · rw [ih f2' rest hr hr2]

/-! ## One-step unfolding of the scanners -/

theorem matchTag_head (s : List Char) (t : TagMatch) (hm : matchTag s = some t) :
    ∃ rest, s = '<' :: rest := by
  obtain ⟨hs, ⟨tl, hmt⟩, _⟩ := matchTag_spec s t hm
  rw [hmt] at hs
  exact ⟨tl ++ t.rest, by simpa using hs⟩

theorem matchTag_cons_rest_le (c : Char) (rest : List Char) (t : TagMatch)
    (hm : matchTag (c :: rest) = some t) : t.rest.length ≤ rest.length := by
  have hlt := matchTag_rest_lt (c :: rest) t hm
  simp at hlt
  omega

theorem san_nil : sanitizeCore [] = [] := rfl

theorem san_chr (c : Char) (rest : List Char) (h1 : ¬ c = '<') (h2 : ¬ c = '>')
    (h3 : ¬ c = '&') : sanitizeCore (c :: rest) = c :: sanitizeCore rest := by
  show sanitizeF (rest.length + 1) (c :: rest) = _
  simp only [sanitizeF]
  rw [if_neg h1, if_neg h2, if_neg h3]
  rfl

theorem san_gt (rest : List Char) :
    sanitizeCore ('>' :: rest) = ("&gt;".data) ++ sanitizeCore rest := rfl

theorem san_tag (s : List Char) (t : TagMatch) (hm : matchTag s = some t)
    (ha : ALLOWED_TAGS.contains (lowerName t.name) = true) :
    sanitizeCore s = t.matched ++ sanitizeCore t.rest := by
  obtain ⟨rest, rfl⟩ := matchTag_head s t hm
  have hle : t.rest.length ≤ rest.length := matchTag_cons_rest_le '<' rest t hm
  show sanitizeF (rest.length + 1) ('<' :: rest) = _
  simp only [sanitizeF, if_true]
  split
  · rename_i t' heq
    rw [hm] at heq
    obtain rfl := Option.some.inj heq
    rw [if_pos ha]
    congr 1
    exact sanitizeF_irrel rest.length t.rest.length t.rest hle le_rfl
  · rename_i heq
    rw [hm] at heq
    simp at heq

theorem san_tag_bad (s : List Char) (rest : List Char) (t : TagMatch)
    (hs : s = '<' :: rest) (hm : matchTag s = some t)
    (ha : ALLOWED_TAGS.contains (lowerName t.name) = false) :
    sanitizeCore s = ("&lt;".data) ++ sanitizeCore rest := by
  subst hs
  show sanitizeF (rest.length + 1) ('<' :: rest) = _
  simp only [sanitizeF, if_true]
  split
  · rename_i t' heq
    rw [hm] at heq
    obtain rfl := Option.some.inj heq
    rw [ha]
    simp only [Bool.false_eq_true, if_false]
    rfl
  · rename_i heq
    rw [hm] at heq
    simp at heq

theorem san_lt_none (rest : List Char) (hm : matchTag ('<' :: rest) = none) :
    sanitizeCore ('<' :: rest) = ("&lt;".data) ++ sanitizeCore rest := by
  show sanitizeF (rest.length + 1) ('<' :: rest) = _
  simp only [sanitizeF, if_true]
  split
  · rename_i t' heq
    rw [hm] at heq
    simp at heq
  · rfl

theorem san_ent (s e r : List Char) (hme : matchEntity s = some (e, r)) :
    sanitizeCore s = e ++ sanitizeCore r := by
  obtain ⟨hs, ⟨tl, he⟩, _⟩ := matchEntity_spec s e r hme
  rw [he] at hs
  obtain ⟨rest, rfl⟩ : ∃ rest, s = '&' :: rest := ⟨tl ++ r, by simpa using hs⟩
  have hle : r.length ≤ rest.length := by
    have := matchEntity_rest_lt ('&' :: rest) e r hme
    simp at this
    omega
  show sanitizeF (rest.length + 1) ('&' :: rest) = _
  simp only [sanitizeF]
  rw [if_pos (show True from trivial), hme]
  show e ++ sanitizeF rest.length r = e ++ sanitizeCore r
  congr 1
  exact sanitizeF_irrel rest.length r.length r hle le_rfl

theorem san_amp_none (rest : List Char) (hme : matchEntity ('&' :: rest) = none) :
    sanitizeCore ('&' :: rest) = ("&amp;".data) ++ sanitizeCore rest := by
  show sanitizeF (rest.length + 1) ('&' :: rest) = _
  simp only [sanitizeF]
  rw [if_pos (show True from trivial), hme]
  rfl

theorem safe_nil : safeOutputCore [] = true := rfl

theorem safe_chr (c : Char) (rest : List Char) (h1 : ¬ c = '<') (h2 : ¬ c = '>')
    (h3 : ¬ c = '&') : safeOutputCore (c :: rest) = safeOutputCore rest := by
  show safeOutputF (rest.length + 1) (c :: rest) = _
  simp only [safeOutputF]
  rw [if_neg h1, if_neg h2, if_neg h3]
  rfl

theorem safe_tag (s : List Char) (t : TagMatch) (hm : matchTag s = some t)
    (ha : ALLOWED_TAGS.contains (lowerName t.name) = true) :
    safeOutputCore s = safeOutputCore t.rest := by
  obtain ⟨rest, rfl⟩ := matchTag_head s t hm
  have hle : t.rest.length ≤ rest.length := matchTag_cons_rest_le '<' rest t hm
  show safeOutputF (rest.length + 1) ('<' :: rest) = _
  simp only [safeOutputF, if_true]
  split
  · rename_i t' heq
    rw [hm] at heq
    obtain rfl := Option.some.inj heq
    rw [if_pos ha]
    exact safeOutputF_irrel rest.length t.rest.length t.rest hle le_rfl
  · rename_i heq
    rw [hm] at heq
    simp at heq

theorem safe_ent (s e r : List Char) (hme : matchEntity s = some (e, r)) :
    safeOutputCore s = safeOutputCore r := by
  obtain ⟨hs, ⟨tl, he⟩, _⟩ := matchEntity_spec s e r hme
  rw [he] at hs
  obtain ⟨rest, rfl⟩ : ∃ rest, s = '&' :: rest := ⟨tl ++ r, by simpa using hs⟩
  have hle : r.length ≤ rest.length := by
    have := matchEntity_rest_lt ('&' :: rest) e r hme
    simp at this
    omega
  show safeOutputF (rest.length + 1) ('&' :: rest) = _
  simp only [safeOutputF]
  rw [if_pos (show True from trivial), hme]
  show safeOutputF rest.length r = safeOutputCore r
  exact safeOutputF_irrel rest.length r.length r hle le_rfl

theorem val_nil (stack : List String) : validateCore stack [] = stack.isEmpty := rfl

theorem val_skip (c : Char) (rest : List Char) (stack : List String) (hc : ¬ c = '<') :
    validateCore stack (c :: rest) = validateCore stack rest := by
  show validateF (rest.length + 1) stack (c :: rest) = _
  simp only [validateF]
  rw [if_neg hc]
  rfl

theorem val_lt_none (rest : List Char) (stack : List String)
    (hm : matchTag ('<' :: rest) = none) :
    validateCore stack ('<' :: rest) = validateCore stack rest := by
  show validateF (rest.length + 1) stack ('<' :: rest) = _
  simp only [validateF, if_true]
  split
  · rename_i t' heq
    rw [hm] at heq
    simp at heq
  · rfl

theorem val_tag (s : List Char) (t : TagMatch) (stack : List String)
    (hm : matchTag s = some t) :
    validateCore stack s =
      (if ALLOWED_TAGS.contains (lowerName t.name) then
        (if t.closing then
          (match stack with
           | top :: s' => if top = lowerName t.name then validateCore s' t.rest else false
           | [] => false)
         else validateCore (lowerName t.name :: stack) t.rest)
       else validateCore stack t.rest) := by
  obtain ⟨rest, rfl⟩ := matchTag_head s t hm
  have hle : t.rest.length ≤ rest.length := matchTag_cons_rest_le '<' rest t hm
  have he : ∀ st : List String, validateF rest.length st t.rest = validateCore st t.rest :=
    fun st => validateF_irrel rest.length t.rest.length st t.rest hle le_rfl
  show validateF (rest.length + 1) stack ('<' :: rest) = _
  simp only [validateF, if_true]
  split
  · rename_i t' heq
    rw [hm] at heq
    obtain rfl := Option.some.inj heq
    simp only [he]
  · rename_i heq
    rw [hm] at heq
    simp at heq

theorem strict_nil (stack : List String) : strictScan stack [] = some stack := rfl

theorem strict_skip (c : Char) (rest : List Char) (stack : List String) (hc : ¬ c = '<') :
    strictScan stack (c :: rest) = strictScan stack rest := by
  show strictScanF (rest.length + 1) stack (c :: rest) = _
  simp only [strictScanF]
  rw [if_neg hc]
  rfl

theorem strict_lt_none (rest : List Char) (stack : List String)
    (hm : matchTag ('<' :: rest) = none) :
    strictScan stack ('<' :: rest) = none := by
  show strictScanF (rest.length + 1) stack ('<' :: rest) = _
  simp only [strictScanF, if_true]
  split
  · rename_i t' heq
    rw [hm] at heq
    simp at heq
  · rfl

theorem strict_tag (s : List Char) (t : TagMatch) (stack : List String)
    (hm : matchTag s = some t) :
    strictScan stack s =
      (if ALLOWED_TAGS.contains (lowerName t.name) then
        (if t.closing then
          (match stack with
           | top :: s' => if top = lowerName t.name then strictScan s' t.rest else none
           | [] => none)
         else strictScan (lowerName t.name :: stack) t.rest)
       else strictScan stack t.rest) := by
  obtain ⟨rest, rfl⟩ := matchTag_head s t hm
  have hle : t.rest.length ≤ rest.length := matchTag_cons_rest_le '<' rest t hm
  have he : ∀ st : List String, strictScanF rest.length st t.rest = strictScan st t.rest :=
    fun st => strictScanF_irrel rest.length t.rest.length st t.rest hle le_rfl
  show strictScanF (rest.length + 1) stack ('<' :: rest) = _
  simp only [strictScanF, if_true]
  split
  · rename_i t' heq
    rw [hm] at heq
    obtain rfl := Option.some.inj heq
    simp only [he]
  · rename_i heq
    rw [hm] at heq
    simp at heq

theorem rep_nil (stack : List String) : repairCore stack [] = stack := rfl

theorem rep_skip (c : Char) (rest : List Char) (stack : List String) (hc : ¬ c = '<') :
    repairCore stack (c :: rest) = repairCore stack rest := by
  show repairF (rest.length + 1) stack (c :: rest) = _
  simp only [repairF]
  rw [if_neg hc]
  rfl

theorem rep_lt_none (rest : List Char) (stack : List String)
    (hm : matchTag ('<' :: rest) = none) :
    repairCore stack ('<' :: rest) = repairCore stack rest := by
  show repairF (rest.length + 1) stack ('<' :: rest) = _
  simp only [repairF, if_true]
  split
  · rename_i t' heq
    rw [hm] at heq
    simp at heq
  · rfl

theorem rep_tag (s : List Char) (t : TagMatch) (stack : List String)
    (hm : matchTag s = some t) :
    repairCore stack s =
      (if ALLOWED_TAGS.contains (lowerName t.name) then
        (if t.closing then
          (match stack with
           | top :: s' =>
             if top = lowerName t.name then repairCore s' t.rest else repairCore stack t.rest
           | [] => repairCore stack t.rest)
         else repairCore (lowerName t.name :: stack) t.rest)
       else repairCore stack t.rest) := by
  obtain ⟨rest, rfl⟩ := matchTag_head s t hm
  have hle : t.rest.length ≤ rest.length := matchTag_cons_rest_le '<' rest t hm
  have he : ∀ st : List String, repairF rest.length st t.rest = repairCore st t.rest :=
    fun st => repairF_irrel rest.length t.rest.length st t.rest hle le_rfl
  show repairF (rest.length + 1) stack ('<' :: rest) = _
  simp only [repairF, if_true]
  split
  · rename_i t' heq
    rw [hm] at heq
    obtain rfl := Option.some.inj heq
    simp only [he]
  · rename_i heq
    rw [hm] at heq
    simp at heq

/-! ## Passthrough of emitted atoms: a whitelisted tag or recognised entity
emitted by the sanitizer is consumed whole by any later scan. -/

theorem san_pass_tag (s0 : List Char) (t : TagMatch) (hm : matchTag s0 = some t)
    (ha : ALLOWED_TAGS.contains (lowerName t.name) = true) (u : List Char) :
    sanitizeCore (t.matched ++ u) = t.matched ++ sanitizeCore u := by
  have hst := (matchTag_spec s0 t hm).2.2 u
  have := san_tag (t.matched ++ u) ⟨t.closing, t.name, t.matched, u⟩ hst ha
  simpa using this

theorem safe_pass_tag (s0 : List Char) (t : TagMatch) (hm : matchTag s0 = some t)
    (ha : ALLOWED_TAGS.contains (lowerName t.name) = true) (u : List Char) :
    safeOutputCore (t.matched ++ u) = safeOutputCore u := by
  have hst := (matchTag_spec s0 t hm).2.2 u
  have := safe_tag (t.matched ++ u) ⟨t.closing, t.name, t.matched, u⟩ hst ha
  simpa using this

theorem san_pass_ent (s0 e r : List Char) (hme : matchEntity s0 = some (e, r))
    (u : List Char) : sanitizeCore (e ++ u) = e ++ sanitizeCore u := by
  have hst := (matchEntity_spec s0 e r hme).2.2 u
  exact san_ent (e ++ u) e u hst

theorem safe_pass_ent (s0 e r : List Char) (hme : matchEntity s0 = some (e, r))
    (u : List Char) : safeOutputCore (e ++ u) = safeOutputCore u := by
  have hst := (matchEntity_spec s0 e r hme).2.2 u
  exact safe_ent (e ++ u) e u hst

theorem ent_lt_stable (u : List Char) :
    matchEntity (("&lt;".data) ++ u) = some ("&lt;".data, u) := by
  have h : matchEntity ("&lt;".data) = some ("&lt;".data, []) := by decide
  exact (matchEntity_spec ("&lt;".data) ("&lt;".data) [] h).2.2 u

theorem ent_gt_stable (u : List Char) :
    matchEntity (("&gt;".data) ++ u) = some ("&gt;".data, u) := by
  have h : matchEntity ("&gt;".data) = some ("&gt;".data, []) := by decide
  exact (matchEntity_spec ("&gt;".data) ("&gt;".data) [] h).2.2 u

theorem ent_amp_stable (u : List Char) :
    matchEntity (("&amp;".data) ++ u) = some ("&amp;".data, u) := by
  have h : matchEntity ("&amp;".data) = some ("&amp;".data, []) := by decide
  exact (matchEntity_spec ("&amp;".data) ("&amp;".data) [] h).2.2 u

theorem san_esc_lt (u : List Char) :
    sanitizeCore (("&lt;".data) ++ u) = ("&lt;".data) ++ sanitizeCore u :=
  san_ent (("&lt;".data) ++ u) ("&lt;".data) u (ent_lt_stable u)

theorem san_esc_gt (u : List Char) :
    sanitizeCore (("&gt;".data) ++ u) = ("&gt;".data) ++ sanitizeCore u :=
  san_ent (("&gt;".data) ++ u) ("&gt;".data) u (ent_gt_stable u)

theorem san_esc_amp (u : List Char) :
    sanitizeCore (("&amp;".data) ++ u) = ("&amp;".data) ++ sanitizeCore u :=
  san_ent (("&amp;".data) ++ u) ("&amp;".data) u (ent_amp_stable u)

theorem safe_esc_lt (u : List Char) :
    safeOutputCore (("&lt;".data) ++ u) = safeOutputCore u :=
  safe_ent (("&lt;".data) ++ u) ("&lt;".data) u (ent_lt_stable u)

theorem safe_esc_gt (u : List Char) :
    safeOutputCore (("&gt;".data) ++ u) = safeOutputCore u :=
  safe_ent (("&gt;".data) ++ u) ("&gt;".data) u (ent_gt_stable u)

theorem safe_esc_amp (u : List Char) :
    safeOutputCore (("&amp;".data) ++ u) = safeOutputCore u :=
  safe_ent (("&amp;".data) ++ u) ("&amp;".data) u (ent_amp_stable u)

/-! ## Main inductions for escaping totality and idempotence -/

theorem sanitize_safe_aux : ∀ n s, s.length ≤ n → safeOutputCore (sanitizeCore s) = true := by
  intro n
  induction n with
  | zero =>
    intro s h
    have hnil : s = [] := List.eq_nil_of_length_eq_zero (Nat.le_zero.mp h)
    subst hnil
    rfl
  | succ n ih =>
    intro s h
    cases s with
    | nil => rfl
    | cons c rest =>
      have hr : rest.length ≤ n := by simpa using h
      by_cases hc : c = '<'
      · subst hc
        cases hm : matchTag ('<' :: rest) with
        | some t =>
          by_cases ha : ALLOWED_TAGS.contains (lowerName t.name) = true
          · rw [san_tag ('<' :: rest) t hm ha, safe_pass_tag ('<' :: rest) t hm ha]
            exact ih t.rest (le_trans (matchTag_cons_rest_le '<' rest t hm) hr)
          · rw [san_tag_bad ('<' :: rest) rest t rfl hm (by simpa using ha), safe_esc_lt]
            exact ih rest hr
        | none =>
          rw [san_lt_none rest hm, safe_esc_lt]
          exact ih rest hr
      · by_cases hgt : c = '>'
        · subst hgt
          rw [san_gt, safe_esc_gt]
          exact ih rest hr
        · by_cases hamp : c = '&'
          · subst hamp
            cases hme : matchEntity ('&' :: rest) with
            | some p =>
              obtain ⟨e, r⟩ := p
              rw [san_ent ('&' :: rest) e r hme, safe_pass_ent ('&' :: rest) e r hme]
              have hle : r.length ≤ n := by
                have hlt := matchEntity_rest_lt ('&' :: rest) e r hme
                simp at hlt
                omega
              exact ih r hle
            | none =>
              rw [san_amp_none rest hme, safe_esc_amp]
              exact ih rest hr
          · rw [san_chr c rest hc hgt hamp, safe_chr c (sanitizeCore rest) hc hgt hamp]
            exact ih rest hr

theorem sanitize_idem_aux : ∀ n s, s.length ≤ n →
    sanitizeCore (sanitizeCore s) = sanitizeCore s := by
  intro n
  induction n with
  | zero =>
    intro s h
    have hnil : s = [] := List.eq_nil_of_length_eq_zero (Nat.le_zero.mp h)
    subst hnil
    rfl
  | succ n ih =>
    intro s h
    cases s with
    | nil => rfl
    | cons c rest =>
      have hr : rest.length ≤ n := by simpa using h
      by_cases hc : c = '<'
      · subst hc
        cases hm : matchTag ('<' :: rest) with
        | some t =>
          by_cases ha : ALLOWED_TAGS.contains (lowerName t.name) = true
          · rw [san_tag ('<' :: rest) t hm ha, san_pass_tag ('<' :: rest) t hm ha]
            rw [ih t.rest (le_trans (matchTag_cons_rest_le '<' rest t hm) hr)]
          · rw [san_tag_bad ('<' :: rest) rest t rfl hm (by simpa using ha), san_esc_lt]
            rw [ih rest hr]
        | none =>
          rw [san_lt_none rest hm, san_esc_lt]
          rw [ih rest hr]
      · by_cases hgt : c = '>'
        · subst hgt
          rw [san_gt, san_esc_gt]
          rw [ih rest hr]
        · by_cases hamp : c = '&'
          · subst hamp
            cases hme : matchEntity ('&' :: rest) with
            | some p =>
              obtain ⟨e, r⟩ := p
              rw [san_ent ('&' :: rest) e r hme, san_pass_ent ('&' :: rest) e r hme]
              have hle : r.length ≤ n := by
                have hlt := matchEntity_rest_lt ('&' :: rest) e r hme
                simp at hlt
                omega
              rw [ih r hle]
            | none =>
              rw [san_amp_none rest hme, san_esc_amp]
              rw [ih rest hr]
          · rw [san_chr c rest hc hgt hamp]
            rw [san_chr c (sanitizeCore rest) hc hgt hamp]
            rw [ih rest hr]

/-! ## Field-level step lemmas for tag tokens -/

theorem val_close_ok (s : List Char) (nm mt rst : List Char) (s1 : List String)
    (hm : matchTag s = some ⟨true, nm, mt, rst⟩)
    (ha : ALLOWED_TAGS.contains (lowerName nm) = true) :
    validateCore (lowerName nm :: s1) s = validateCore s1 rst := by
  rw [val_tag s ⟨true, nm, mt, rst⟩ (lowerName nm :: s1) hm]
  have hmem : lowerName nm ∈ ALLOWED_TAGS := by simpa using ha
  simp [hmem]

theorem val_close_nil (s : List Char) (nm mt rst : List Char)
    (hm : matchTag s = some ⟨true, nm, mt, rst⟩)
    (ha : ALLOWED_TAGS.contains (lowerName nm) = true) :
    validateCore [] s = false := by
  rw [val_tag s ⟨true, nm, mt, rst⟩ [] hm]
  have hmem : lowerName nm ∈ ALLOWED_TAGS := by simpa using ha
  simp [hmem]

theorem val_close_mismatch (s : List Char) (nm mt rst : List Char) (top : String)
    (s1 : List String) (hm : matchTag s = some ⟨true, nm, mt, rst⟩)
    (ha : ALLOWED_TAGS.contains (lowerName nm) = true) (htop : ¬ top = lowerName nm) :
    validateCore (top :: s1) s = false := by
  rw [val_tag s ⟨true, nm, mt, rst⟩ (top :: s1) hm]
  have hmem : lowerName nm ∈ ALLOWED_TAGS := by simpa using ha
  simp [hmem, htop]

theorem val_open (s : List Char) (nm mt rst : List Char) (stack : List String)
    (hm : matchTag s = some ⟨false, nm, mt, rst⟩)
    (ha : ALLOWED_TAGS.contains (lowerName nm) = true) :
    validateCore stack s = validateCore (lowerName nm :: stack) rst := by
  rw [val_tag s ⟨false, nm, mt, rst⟩ stack hm]
  have hmem : lowerName nm ∈ ALLOWED_TAGS := by simpa using ha
  simp [hmem]

theorem val_tag_skip (s : List Char) (cl : Bool) (nm mt rst : List Char)
    (stack : List String) (hm : matchTag s = some ⟨cl, nm, mt, rst⟩)
    (ha : ALLOWED_TAGS.contains (lowerName nm) = false) :
    validateCore stack s = validateCore stack rst := by
  rw [val_tag s ⟨cl, nm, mt, rst⟩ stack hm]
  have hmem : lowerName nm ∉ ALLOWED_TAGS := by simpa using ha
  simp [hmem]

theorem strict_close_ok (s : List Char) (nm mt rst : List Char) (s1 : List String)
    (hm : matchTag s = some ⟨true, nm, mt, rst⟩)
    (ha : ALLOWED_TAGS.contains (lowerName nm) = true) :
    strictScan (lowerName nm :: s1) s = strictScan s1 rst := by
  rw [strict_tag s ⟨true, nm, mt, rst⟩ (lowerName nm :: s1) hm]
  have hmem : lowerName nm ∈ ALLOWED_TAGS := by simpa using ha
  simp [hmem]

theorem strict_close_nil (s : List Char) (nm mt rst : List Char)
    (hm : matchTag s = some ⟨true, nm, mt, rst⟩)
    (ha : ALLOWED_TAGS.contains (lowerName nm) = true) :
    strictScan [] s = none := by
  rw [strict_tag s ⟨true, nm, mt, rst⟩ [] hm]
  have hmem : lowerName nm ∈ ALLOWED_TAGS := by simpa using ha
  simp [hmem]

theorem strict_close_mismatch (s : List Char) (nm mt rst : List Char) (top : String)
    (s1 : List String) (hm : matchTag s = some ⟨true, nm, mt, rst⟩)
    (ha : ALLOWED_TAGS.contains (lowerName nm) = true) (htop : ¬ top = lowerName nm) :
    strictScan (top :: s1) s = none := by
  rw [strict_tag s ⟨true, nm, mt, rst⟩ (top :: s1) hm]
  have hmem : lowerName nm ∈ ALLOWED_TAGS := by simpa using ha
  simp [hmem, htop]

theorem strict_open (s : List Char) (nm mt rst : List Char) (stack : List String)
    (hm : matchTag s = some ⟨false, nm, mt, rst⟩)
    (ha : ALLOWED_TAGS.contains (lowerName nm) = true) :
    strictScan stack s = strictScan (lowerName nm :: stack) rst := by
  rw [strict_tag s ⟨false, nm, mt, rst⟩ stack hm]
  have hmem : lowerName nm ∈ ALLOWED_TAGS := by simpa using ha
  simp [hmem]

theorem strict_tag_skip (s : List Char) (cl : Bool) (nm mt rst : List Char)
    (stack : List String) (hm : matchTag s = some ⟨cl, nm, mt, rst⟩)
    (ha : ALLOWED_TAGS.contains (lowerName nm) = false) :
    strictScan stack s = strictScan stack rst := by
  rw [strict_tag s ⟨cl, nm, mt, rst⟩ stack hm]
  have hmem : lowerName nm ∉ ALLOWED_TAGS := by simpa using ha
  simp [hmem]

theorem rep_close_ok (s : List Char) (nm mt rst : List Char) (s1 : List String)
    (hm : matchTag s = some ⟨true, nm, mt, rst⟩)
    (ha : ALLOWED_TAGS.contains (lowerName nm) = true) :
    repairCore (lowerName nm :: s1) s = repairCore s1 rst := by
  rw [rep_tag s ⟨true, nm, mt, rst⟩ (lowerName nm :: s1) hm]
  have hmem : lowerName nm ∈ ALLOWED_TAGS := by simpa using ha
  simp [hmem]

theorem rep_open (s : List Char) (nm mt rst : List Char) (stack : List String)
    (hm : matchTag s = some ⟨false, nm, mt, rst⟩)
    (ha : ALLOWED_TAGS.contains (lowerName nm) = true) :
    repairCore stack s = repairCore (lowerName nm :: stack) rst := by
  rw [rep_tag s ⟨false, nm, mt, rst⟩ stack hm]
  have hmem : lowerName nm ∈ ALLOWED_TAGS := by simpa using ha
  simp [hmem]

theorem rep_tag_skip (s : List Char) (cl : Bool) (nm mt rst : List Char)
    (stack : List String) (hm : matchTag s = some ⟨cl, nm, mt, rst⟩)
    (ha : ALLOWED_TAGS.contains (lowerName nm) = false) :
    repairCore stack s = repairCore stack rst := by
  rw [rep_tag s ⟨cl, nm, mt, rst⟩ stack hm]
  have hmem : lowerName nm ∉ ALLOWED_TAGS := by simpa using ha
  simp [hmem]

/-! ## Relating the strict token scan with the validator and the repair scan -/

theorem strict_append : ∀ n (t : List Char) (stack st' : List String) (u : List Char),
    t.length ≤ n → strictScan stack t = some st' →
    validateCore stack (t ++ u) = validateCore st' u := by
  intro n
  induction n with
  | zero =>
    intro t stack st' u h hs
    have hnil : t = [] := List.eq_nil_of_length_eq_zero (Nat.le_zero.mp h)
    subst hnil
    rw [strict_nil] at hs
    obtain rfl := Option.some.inj hs
    rfl
  | succ n ih =>
    intro t stack st' u h hs
    cases t with
    | nil =>
      rw [strict_nil] at hs
      obtain rfl := Option.some.inj hs
      rfl
    | cons c rest =>
      have hr : rest.length ≤ n := by simpa using h
      by_cases hc : c = '<'
      · subst hc
        cases hm : matchTag ('<' :: rest) with
        | none =>
          rw [strict_lt_none rest stack hm] at hs
          simp at hs
        | some tm =>
          obtain ⟨cl, nm, mt, rst⟩ := tm
          have hrle : rst.length ≤ n :=
            le_trans (matchTag_cons_rest_le '<' rest ⟨cl, nm, mt, rst⟩ hm) hr
          have hmu : matchTag (('<' :: rest) ++ u) = some ⟨cl, nm, mt, rst ++ u⟩ := by
            obtain ⟨hsplit, _, hstable⟩ := matchTag_spec ('<' :: rest) ⟨cl, nm, mt, rst⟩ hm
            rw [hsplit, List.append_assoc]
            exact hstable (rst ++ u)
          by_cases ha : ALLOWED_TAGS.contains (lowerName nm) = true
          · cases cl with
            | true =>
              cases stack with
              | nil =>
                rw [strict_close_nil ('<' :: rest) nm mt rst hm ha] at hs
                simp at hs
              | cons top s1 =>
                by_cases htop : top = lowerName nm
                · subst htop
                  rw [strict_close_ok ('<' :: rest) nm mt rst s1 hm ha] at hs
                  rw [val_close_ok (('<' :: rest) ++ u) nm mt (rst ++ u) s1 hmu ha]
                  exact ih rst s1 st' u hrle hs
                · rw [strict_close_mismatch ('<' :: rest) nm mt rst top s1 hm ha htop] at hs
                  simp at hs
            | false =>
              rw [strict_open ('<' :: rest) nm mt rst stack hm ha] at hs
              rw [val_open (('<' :: rest) ++ u) nm mt (rst ++ u) stack hmu ha]
              exact ih rst (lowerName nm :: stack) st' u hrle hs
          · have ha' : ALLOWED_TAGS.contains (lowerName nm) = false := by simpa using ha
            rw [strict_tag_skip ('<' :: rest) cl nm mt rst stack hm ha'] at hs
            rw [val_tag_skip (('<' :: rest) ++ u) cl nm mt (rst ++ u) stack hmu ha']
            exact ih rst stack st' u hrle hs
      · rw [strict_skip c rest stack hc] at hs
        rw [List.cons_append, val_skip c (rest ++ u) stack hc]
        exact ih rest stack st' u hr hs

theorem strict_repair : ∀ n (t : List Char) (stack st' : List String),
    t.length ≤ n → strictScan stack t = some st' → repairCore stack t = st' := by
  intro n
  induction n with
  | zero =>
    intro t stack st' h hs
    have hnil : t = [] := List.eq_nil_of_length_eq_zero (Nat.le_zero.mp h)
    subst hnil
    rw [strict_nil] at hs
    exact Option.some.inj hs
  | succ n ih =>
    intro t stack st' h hs
    cases t with
    | nil =>
      rw [strict_nil] at hs
      exact Option.some.inj hs
    | cons c rest =>
      have hr : rest.length ≤ n := by simpa using h
      by_cases hc : c = '<'
      · subst hc
        cases hm : matchTag ('<' :: rest) with
        | none =>
          rw [strict_lt_none rest stack hm] at hs
          simp at hs
        | some tm =>
          obtain ⟨cl, nm, mt, rst⟩ := tm
          have hrle : rst.length ≤ n :=
            le_trans (matchTag_cons_rest_le '<' rest ⟨cl, nm, mt, rst⟩ hm) hr
          by_cases ha : ALLOWED_TAGS.contains (lowerName nm) = true
          · cases cl with
            | true =>
              cases stack with
              | nil =>
                rw [strict_close_nil ('<' :: rest) nm mt rst hm ha] at hs
                simp at hs
              | cons top s1 =>
                by_cases htop : top = lowerName nm
                · subst htop
                  rw [strict_close_ok ('<' :: rest) nm mt rst s1 hm ha] at hs
                  rw [rep_close_ok ('<' :: rest) nm mt rst s1 hm ha]
                  exact ih rst s1 st' hrle hs
                · rw [strict_close_mismatch ('<' :: rest) nm mt rst top s1 hm ha htop] at hs
                  simp at hs
            | false =>
              rw [strict_open ('<' :: rest) nm mt rst stack hm ha] at hs
              rw [rep_open ('<' :: rest) nm mt rst stack hm ha]
              exact ih rst (lowerName nm :: stack) st' hrle hs
          · have ha' : ALLOWED_TAGS.contains (lowerName nm) = false := by simpa using ha
            rw [strict_tag_skip ('<' :: rest) cl nm mt rst stack hm ha'] at hs
            rw [rep_tag_skip ('<' :: rest) cl nm mt rst stack hm ha']
            exact ih rst stack st' hrle hs
      · rw [strict_skip c rest stack hc] at hs
        rw [rep_skip c rest stack hc]
        exact ih rest stack st' hr hs

theorem contains_mem (x : String) (h : ALLOWED_TAGS.contains x = true) :
    x ∈ ALLOWED_TAGS := by
  simpa using h

theorem strict_stack_mem : ∀ n (t : List Char) (stack st' : List String),
    t.length ≤ n → strictScan stack t = some st' →
    (∀ x ∈ stack, x ∈ ALLOWED_TAGS) → ∀ x ∈ st', x ∈ ALLOWED_TAGS := by
  intro n
  induction n with
  | zero =>
    intro t stack st' h hs hmem
    have hnil : t = [] := List.eq_nil_of_length_eq_zero (Nat.le_zero.mp h)
    subst hnil
    rw [strict_nil] at hs
    obtain rfl := Option.some.inj hs
    exact hmem
  | succ n ih =>
    intro t stack st' h hs hmem
    cases t with
    | nil =>
      rw [strict_nil] at hs
      obtain rfl := Option.some.inj hs
      exact hmem
    | cons c rest =>
      have hr : rest.length ≤ n := by simpa using h
      by_cases hc : c = '<'
      · subst hc
        cases hm : matchTag ('<' :: rest) with
        | none =>
          rw [strict_lt_none rest stack hm] at hs
          simp at hs
        | some tm =>
          obtain ⟨cl, nm, mt, rst⟩ := tm
          have hrle : rst.length ≤ n :=
            le_trans (matchTag_cons_rest_le '<' rest ⟨cl, nm, mt, rst⟩ hm) hr
          by_cases ha : ALLOWED_TAGS.contains (lowerName nm) = true
          · cases cl with
            | true =>
              cases stack with
              | nil =>
                rw [strict_close_nil ('<' :: rest) nm mt rst hm ha] at hs
                simp at hs
              | cons top s1 =>
                by_cases htop : top = lowerName nm
                · subst htop
                  rw [strict_close_ok ('<' :: rest) nm mt rst s1 hm ha] at hs
                  exact ih rst s1 st' hrle hs (fun y hy => hmem y (by simp [hy]))
                · rw [strict_close_mismatch ('<' :: rest) nm mt rst top s1 hm ha htop] at hs
                  simp at hs
            | false =>
              rw [strict_open ('<' :: rest) nm mt rst stack hm ha] at hs
              refine ih rst (lowerName nm :: stack) st' hrle hs ?_
              intro y hy
              rcases List.mem_cons.mp hy with rfl | hy
              · exact contains_mem _ ha
              · exact hmem y hy
          · have ha' : ALLOWED_TAGS.contains (lowerName nm) = false := by simpa using ha
            rw [strict_tag_skip ('<' :: rest) cl nm mt rst stack hm ha'] at hs
            exact ih rst stack st' hrle hs hmem
      · rw [strict_skip c rest stack hc] at hs
        exact ih rest stack st' hr hs hmem

theorem allowed_name_facts : ∀ x ∈ ALLOWED_TAGS, ¬ (String.data x = []) ∧
    (∀ c ∈ String.data x, c.isAlpha = true) ∧ lowerName (String.data x) = x ∧
    ALLOWED_TAGS.contains x = true := by decide

theorem close_tag_step (x : String) (hx : x ∈ ALLOWED_TAGS) (stack : List String)
    (rest : List Char) :
    validateCore (x :: stack) ('<' :: '/' :: (x.data ++ '>' :: rest)) =
      validateCore stack rest := by
  obtain ⟨hne, halpha, hlow, hcont⟩ := allowed_name_facts x hx
  have hta : takeAlpha (x.data ++ '>' :: rest) = (x.data, '>' :: rest) :=
    takeAlpha_stable x.data halpha '>' rest gt_not_alpha
  have hmt : matchTag ('<' :: '/' :: (x.data ++ '>' :: rest)) =
      some ⟨true, x.data, ('<' :: '/' :: x.data) ++ ['>'], rest⟩ := by
    simp only [matchTag, if_true]
    rw [tagBody_unfold true ['<', '/'] _ x.data ('>' :: rest) hta
      (by simpa [List.isEmpty_iff] using hne)]
    simp [tagFinish]
  have hstep := val_close_ok ('<' :: '/' :: (x.data ++ '>' :: rest)) x.data
    (('<' :: '/' :: x.data) ++ ['>']) rest stack hmt (by rw [hlow]; exact hcont)
  rw [hlow] at hstep
  exact hstep

theorem closeAll_validates : ∀ st : List String, (∀ x ∈ st, x ∈ ALLOWED_TAGS) →
    validateCore st (closeAll st) = true := by
  intro st
  induction st with
  | nil => intro _; rfl
  | cons x st ih =>
    intro hmem
    have hx : x ∈ ALLOWED_TAGS := hmem x (by simp)
    have hca : closeAll (x :: st) = '<' :: '/' :: (x.data ++ '>' :: closeAll st) := by
      simp [closeAll, String.data_append, show ("</".data) = ['<', '/'] from rfl,
        show ((">").data) = ['>'] from rfl]
    rw [hca, close_tag_step x hx st (closeAll st)]
    exact ih (fun y hy => hmem y (by simp [hy]))

/-! ## Claim theorems -/

/-- Claim C1 (escaping totality of the sanitizer): for every input string, the
output of `sanitize_telegram_html` contains no `<`, `>` or `&` character
except as part of a whitelisted tag or a recognised character entity, as
checked by the `safeOutputCore` scanner. -/
theorem sanitize_escaping_totality (s : String) :
    safeOutputCore (sanitize_telegram_html s).data = true :=
  sanitize_safe_aux s.data.length s.data le_rfl

/-- Claim C6 (idempotence of the sanitizer): sanitizing twice equals
sanitizing once.  This holds for every input string, in particular for every
input containing only whitelisted tags and literal text. -/
theorem sanitize_idempotent (s : String) :
    sanitize_telegram_html (sanitize_telegram_html s) = sanitize_telegram_html s := by
  show String.mk (sanitizeCore (sanitizeCore s.data)) = String.mk (sanitizeCore s.data)
  exact congrArg String.mk (sanitize_idem_aux s.data.length s.data le_rfl)

/-- C3 counterexample input: a stray close tag followed by sixty `x`s. -/
def truncCexInput : String := String.mk ('<' :: '/' :: 'b' :: '>' :: List.replicate 60 'x')

/-- Claim C3 is false as stated: `truncate_html` does not always produce text
that passes `validate_telegram_html`.  On the concrete input
`"</b>" ++ "x" * 60` with `max_length = 60` (so truncation occurs), the
truncated prefix keeps the stray `</b>`; the repair loop ignores it, but the
validator rejects it. -/
theorem truncate_unbalanced_cex :
    validate_telegram_html (truncate_html truncCexInput 60) = false := by decide

/-- Claim C3 amended: if truncation occurs (`max_length < len`) and the
truncated prefix computed by the code is well tokenised — every `<` in it
begins a complete tag match and whitelisted close tags match the stack in
LIFO order, i.e. the strict token scan succeeds — then the truncator's output
passes the validator. -/
theorem truncate_balanced (s : String) (m : Nat) (st : List String)
    (hlen : m < s.data.length)
    (hscan : strictScan [] (s.data.take (cutLen s.data m)) = some st) :
    validate_telegram_html (truncate_html s m) = true := by
  have hnotle : ¬ (s.data.length ≤ m) := by omega
  show validateCore [] (truncCore s.data m) = true
  simp only [truncCore]
  rw [if_neg hnotle]
  rw [strict_repair (s.data.take (cutLen s.data m)).length (s.data.take (cutLen s.data m))
    [] st le_rfl hscan]
  rw [List.append_assoc]
  rw [strict_append (s.data.take (cutLen s.data m)).length (s.data.take (cutLen s.data m))
    [] st (("...".data) ++ closeAll st) le_rfl hscan]
  have hmem : ∀ x ∈ st, x ∈ ALLOWED_TAGS :=
    strict_stack_mem (s.data.take (cutLen s.data m)).length (s.data.take (cutLen s.data m))
      [] st le_rfl hscan (by simp)
  have hdot : ¬ ('.' = '<') := by decide
  rw [show (("...".data) ++ closeAll st) = '.' :: '.' :: '.' :: closeAll st from rfl]
  rw [val_skip '.' ('.' :: '.' :: closeAll st) st hdot]
  rw [val_skip '.' ('.' :: closeAll st) st hdot]
  rw [val_skip '.' (closeAll st) st hdot]
  exact closeAll_validates st hmem

/-- C3 witness input: a bold tag, seventy `a`s and its close tag. -/
def truncWitInput : String :=
  String.mk (('<' :: 'b' :: '>' :: List.replicate 70 'a') ++ ('<' :: '/' :: 'b' :: '>' :: []))

/-- Witness for the amended claim C3 at a concrete input. -/
theorem truncate_balanced_witness :
    (60 < truncWitInput.data.length ∧
      strictScan [] (truncWitInput.data.take (cutLen truncWitInput.data 60)) = some ["b"]) ∧
    validate_telegram_html (truncate_html truncWitInput 60) = true :=
  ⟨⟨by decide, by decide⟩, truncate_balanced truncWitInput 60 ["b"] (by decide) (by decide)⟩

/-- Claim C2: dispatch of `format_process_report`: an `error` key yields the
bold-wrapped escaped error line; otherwise a `report` key is sanitized,
validated and — only when valid — truncated to 4096, while an invalid
sanitization falls back to fully escaping the raw text; with neither key the
result is the literal `"Done"`. -/
theorem format_process_report_dispatch (r : Report) :
    (∀ e, r.error = some e →
      format_process_report r = "Error: <b>" ++ htmlEscape e ++ "</b>") ∧
    (r.error = none → ∀ raw, r.report = some raw →
      format_process_report r =
        (if validate_telegram_html (sanitize_telegram_html raw) = true
         then truncate_html (sanitize_telegram_html raw) 4096
         else htmlEscape raw)) ∧
    (r.error = none → r.report = none → format_process_report r = "Done") := by
  obtain ⟨err, rep⟩ := r
  cases err with
  | some e0 =>
    refine ⟨?_, ?_, ?_⟩
    · intro e he
      obtain rfl := Option.some.inj he
      rfl
    · intro hnone
      exact absurd hnone (by simp)
    · intro hnone
      exact absurd hnone (by simp)
  | none =>
    cases rep with
    | some raw0 =>
      refine ⟨?_, ?_, ?_⟩
      · intro e he
        exact absurd he (by simp)
      · intro _ raw hraw
        obtain rfl := Option.some.inj hraw
        show (if validate_telegram_html (sanitize_telegram_html raw0) = false
          then htmlEscape raw0 else truncate_html (sanitize_telegram_html raw0) 4096) = _
        cases hv : validate_telegram_html (sanitize_telegram_html raw0) with
        | true => simp [hv]
        | false => simp [hv]
      · intro _ hnone
        exact absurd hnone (by simp)
    | none =>
      refine ⟨?_, ?_, ?_⟩
      · intro e he
        exact absurd he (by simp)
      · intro _ raw hraw
        exact absurd hraw (by simp)
      · intro _ _
        rfl

/-- Witness for claim C2, on a record carrying an error. -/
theorem format_process_report_dispatch_witness :
    ((⟨some ("bo<om"), some ("x")⟩ : Report).error = some ("bo<om")) ∧
    format_process_report ⟨some ("bo<om"), some ("x")⟩ = "Error: <b>bo&lt;om</b>" := by
  refine ⟨rfl, ?_⟩
  have h := (format_process_report_dispatch ⟨some ("bo<om"), some ("x")⟩).1 ("bo<om") rfl
  rw [h]
  decide

/-- Claim C9 (error-key precedence): when both keys are present,
`format_process_report` takes the error path; the result does not depend on
the `report` value at all. -/
theorem error_key_precedence (e rep : String) :
    format_process_report ⟨some e, some rep⟩ = "Error: <b>" ++ htmlEscape e ++ "</b>" := rfl

/-- A well-formed simple open tag made of an alphabetic name matches. -/
theorem open_tag_match_gen (nm : List Char) (hne : ¬ (nm = []))
    (halpha : ∀ c ∈ nm, c.isAlpha = true) (rest : List Char) :
    matchTag ('<' :: (nm ++ '>' :: rest)) =
      some ⟨false, nm, ('<' :: nm) ++ ['>'], rest⟩ := by
  obtain ⟨hd, tl, rfl⟩ : ∃ hd tl, nm = hd :: tl := by
    cases nm with
    | nil => exact absurd rfl hne
    | cons a b => exact ⟨a, b, rfl⟩
  have hta : takeAlpha ((hd :: tl) ++ '>' :: rest) = (hd :: tl, '>' :: rest) :=
    takeAlpha_stable (hd :: tl) halpha '>' rest gt_not_alpha
  have hhd : hd.isAlpha = true := halpha hd (by simp)
  have hhd' : ¬ (hd = '/') := by
    intro hh
    rw [hh] at hhd
    exact absurd hhd (by decide)
  simp only [List.cons_append, matchTag, if_true]
  rw [if_neg hhd']
  rw [show hd :: (tl ++ '>' :: rest) = (hd :: tl) ++ '>' :: rest from by simp]
  rw [tagBody_unfold false ['<'] _ (hd :: tl) ('>' :: rest)
    (by simpa using hta) (by simp)]
  simp [tagFinish]

/-- A well-formed simple close tag of a whitelisted name matches. -/
theorem close_tag_match (x : String) (hx : x ∈ ALLOWED_TAGS) (rest : List Char) :
    matchTag ('<' :: '/' :: (x.data ++ '>' :: rest)) =
      some ⟨true, x.data, ('<' :: '/' :: x.data) ++ ['>'], rest⟩ := by
  obtain ⟨hne, halpha, hlow, hcont⟩ := allowed_name_facts x hx
  have hta : takeAlpha (x.data ++ '>' :: rest) = (x.data, '>' :: rest) :=
    takeAlpha_stable x.data halpha '>' rest gt_not_alpha
  simp only [matchTag, if_true]
  rw [tagBody_unfold true ['<', '/'] _ x.data ('>' :: rest) hta
    (by simpa [List.isEmpty_iff] using hne)]
  simp [tagFinish]

/-- Claim C7 (validator strict LIFO nesting): the two spec scenarios, plus
the validator's step behaviour — whitelisted open tags are pushed, close tags
must match the top of stack (failing immediately on an empty stack or a
mismatched top), and non-whitelisted tags are ignored. -/
theorem validator_lifo :
    validate_telegram_html ("<b>a<i>b</i></b>") = true ∧
    validate_telegram_html ("<b>a<i>b</b></i>") = false ∧
    (∀ t stack rest, t ∈ ALLOWED_TAGS →
      validateCore stack ('<' :: (String.data t ++ '>' :: rest)) =
        validateCore (t :: stack) rest) ∧
    (∀ t stack rest, t ∈ ALLOWED_TAGS →
      validateCore (t :: stack) ('<' :: '/' :: (String.data t ++ '>' :: rest)) =
        validateCore stack rest) ∧
    (∀ t rest, t ∈ ALLOWED_TAGS →
      validateCore [] ('<' :: '/' :: (String.data t ++ '>' :: rest)) = false) ∧
    (∀ t u stack rest, t ∈ ALLOWED_TAGS → u ∈ ALLOWED_TAGS → ¬ u = t →
      validateCore (u :: stack) ('<' :: '/' :: (String.data t ++ '>' :: rest)) = false) ∧
    (∀ stack rest, validateCore stack ('<' :: 'd' :: 'i' :: 'v' :: '>' :: rest) =
      validateCore stack rest) := by
  refine ⟨by decide, by decide, ?_, ?_, ?_, ?_, ?_⟩
  · intro t stack rest ht
    obtain ⟨hne, halpha, hlow, hcont⟩ := allowed_name_facts t ht
    have hstep := val_open ('<' :: (t.data ++ '>' :: rest)) t.data (('<' :: t.data) ++ ['>'])
      rest stack (open_tag_match_gen t.data hne halpha rest) (by rw [hlow]; exact hcont)
    rw [hlow] at hstep
    exact hstep
  · intro t stack rest ht
    exact close_tag_step t ht stack rest
  · intro t rest ht
    obtain ⟨hne, halpha, hlow, hcont⟩ := allowed_name_facts t ht
    exact val_close_nil ('<' :: '/' :: (t.data ++ '>' :: rest)) t.data
      (('<' :: '/' :: t.data) ++ ['>']) rest (close_tag_match t ht rest)
      (by rw [hlow]; exact hcont)
  · intro t u stack rest ht hu hne'
    obtain ⟨hne, halpha, hlow, hcont⟩ := allowed_name_facts t ht
    exact val_close_mismatch ('<' :: '/' :: (t.data ++ '>' :: rest)) t.data
      (('<' :: '/' :: t.data) ++ ['>']) rest u stack (close_tag_match t ht rest)
      (by rw [hlow]; exact hcont) (by rw [hlow]; exact hne')
  · intro stack rest
    have hm : matchTag ('<' :: 'd' :: 'i' :: 'v' :: '>' :: rest) =
        some ⟨false, ['d', 'i', 'v'], ('<' :: ['d', 'i', 'v']) ++ ['>'], rest⟩ := by
      have := open_tag_match_gen ['d', 'i', 'v'] (by simp) (by decide) rest
      simpa using this
    exact val_tag_skip ('<' :: 'd' :: 'i' :: 'v' :: '>' :: rest) false ['d', 'i', 'v']
      (('<' :: ['d', 'i', 'v']) ++ ['>']) rest stack hm (by decide)

/-- Witness for claim C7: the push equation at a concrete whitelisted tag. -/
theorem validator_lifo_witness :
    (("b" : String) ∈ ALLOWED_TAGS) ∧
    validateCore [] ('<' :: (String.data ("b") ++ '>' :: [])) = validateCore [("b")] [] :=
  ⟨by decide, (validator_lifo).2.2.1 ("b") [] [] (by decide)⟩

/-- Claim C8 is false as stated: the sanitizer copies a whitelisted tag
through verbatim, preserving its original case — `<B>` stays `<B>` and is not
lowercased on output. -/
theorem sanitize_case_cex :
    sanitize_telegram_html ("<B>") = "<B>" ∧ ¬ (sanitize_telegram_html ("<B>") = "<b>") := by
  refine ⟨by decide, by decide⟩

/-- Claim C8 amended: the sanitizer matches whitelisted tag names
case-insensitively (the whitelist test lowercases the name) and copies the
matched tag text to the output verbatim, preserving its case. -/
theorem sanitize_tag_verbatim (s : String) (t : TagMatch)
    (hm : matchTag s.data = some t)
    (ha : ALLOWED_TAGS.contains (lowerName t.name) = true) :
    (sanitize_telegram_html s).data = t.matched ++ sanitizeCore t.rest := by
  show sanitizeCore s.data = _
  exact san_tag s.data t hm ha

/-- Witness for the amended claim C8 on the uppercase input `<B>x`. -/
theorem sanitize_tag_verbatim_witness :
    (matchTag (String.data ("<B>x")) = some ⟨false, ['B'], ['<', 'B', '>'], ['x']⟩ ∧
      ALLOWED_TAGS.contains (lowerName ['B']) = true) ∧
    (sanitize_telegram_html ("<B>x")).data = ['<', 'B', '>'] ++ sanitizeCore ['x'] :=
  ⟨⟨by decide, by decide⟩,
    sanitize_tag_verbatim ("<B>x") ⟨false, ['B'], ['<', 'B', '>'], ['x']⟩ (by decide) (by decide)⟩

/-- Claim C10: a string of 61 spaces with budget 60 is longer than the
budget, yet the splitter returns a list containing the empty string: the
accumulated chunk is stripped of whitespace before being emitted. -/
theorem split_whitespace_empty_segment :
    60 < (String.mk (List.replicate 61 ' ')).length ∧
    split_html_report (String.mk (List.replicate 61 ' ')) 60 = [""] := by
  refine ⟨by decide, by decide⟩

/-- Claim C4 is false as stated: not every segment of `split_html_report`
passes the validator.  `split_html_report("<b>", 3)` returns `["<b>"]` (the
early whole-input return), and `"<b>"` is not balanced. -/
theorem split_segment_cex :
    ¬ (∀ seg ∈ split_html_report ("<b>") 3,
        seg.length ≤ 3 ∧ validate_telegram_html seg = true) := by decide

/-- Claim C4 amended: every segment returned by `split_html_report` either
respects the budget, or is the output of `truncate_html` on an oversized
part (whose length the truncator does not guarantee to bound, and whose
validity is not guaranteed either). -/
theorem split_segment_bound (s : String) (n : Nat) :
    ∀ seg ∈ split_html_report s n,
      seg.length ≤ n ∨ ∃ p : List Char, n < p.length ∧ seg.data = truncCore p n := by
  intro seg hseg
  simp only [split_html_report, splitCore] at hseg
  by_cases hle : s.data.length ≤ n
  · rw [if_pos hle] at hseg
    simp only [List.map_cons, List.map_nil, List.mem_singleton] at hseg
    subst hseg
    left
    exact hle
  · rw [if_neg hle] at hseg
    by_cases hpe : (seedParts s.data n).isEmpty
    · rw [if_pos hpe] at hseg
      simp only [List.map_cons, List.map_nil, List.mem_singleton] at hseg
      subst hseg
      right
      exact ⟨s.data, by omega, rfl⟩
    · rw [if_neg hpe] at hseg
      simp only [List.map_map, List.mem_map] at hseg
      obtain ⟨p, hp, rfl⟩ := hseg
      by_cases hlen : p.length ≤ n
      · left
        simp [Function.comp, hlen]
      · right
        refine ⟨p, by omega, ?_⟩
        simp [Function.comp, hlen]

/-- Witness for the amended claim C4 at a concrete input that fits. -/
theorem split_segment_bound_witness :
    (("ab" : String) ∈ split_html_report ("ab") 3) ∧
    ((("ab" : String).length ≤ 3) ∨
      ∃ p : List Char, 3 < p.length ∧ ("ab" : String).data = truncCore p 3) :=
  ⟨by decide, split_segment_bound ("ab") 3 ("ab") (by decide)⟩

/-! ## Chunk reconstruction machinery -/

theorem splitSeed_flatten : ∀ (t cur : List Char), (splitSeedCore cur t).flatten = cur ++ t := by
  intro t
  induction t with
  | nil => intro cur; simp [splitSeedCore]
  | cons c rest ih =>
    intro cur
    simp only [splitSeedCore]
    split
    · simp [ih]
    · rw [ih (cur ++ [c])]
      simp

theorem forall2_append_one {R : List Char → List Char → Prop}
    {l1 l2 : List (List Char)} (h : List.Forall₂ R l1 l2) {a b : List Char} (hab : R a b) :
    List.Forall₂ R (l1 ++ [a]) (l2 ++ [b]) := by
  induction h with
  | nil => simpa using hab
  | cons hx _ ih => exact List.Forall₂.cons hx ih

theorem splitLoop_spec : ∀ (chunks : List (List Char)) (n : Nat)
    (parts : List (List Char)) (current : List Char) (gs0 : List (List Char)),
    List.Forall₂ (fun p g => p = stripCore g) parts gs0 →
    ∃ gs, List.Forall₂ (fun p g => p = stripCore g)
        (finishParts (splitLoop n (parts, current) chunks)) gs ∧
      gs.flatten = gs0.flatten ++ current ++ chunks.flatten := by
  intro chunks
  induction chunks with
  | nil =>
    intro n parts current gs0 hf
    simp only [splitLoop, finishParts]
    by_cases hcur : current.isEmpty
    · rw [if_pos hcur]
      refine ⟨gs0, hf, ?_⟩
      have hcn : current = [] := by simpa [List.isEmpty_iff] using hcur
      simp [hcn]
    · rw [if_neg hcur]
      refine ⟨gs0 ++ [current], forall2_append_one hf rfl, ?_⟩
      simp
  | cons chunk rest ih =>
    intro n parts current gs0 hf
    simp only [splitLoop]
    by_cases hch : chunk.isEmpty
    · rw [if_pos hch]
      obtain ⟨gs, h1, h2⟩ := ih n parts current gs0 hf
      refine ⟨gs, h1, ?_⟩
      have hcn : chunk = [] := by simpa [List.isEmpty_iff] using hch
      simp [hcn, h2]
    · rw [if_neg hch]
      by_cases hfit : current.length + chunk.length ≤ n
      · rw [if_pos hfit]
        obtain ⟨gs, h1, h2⟩ := ih n parts (current ++ chunk) gs0 hf
        refine ⟨gs, h1, ?_⟩
        rw [h2]
        simp
      · rw [if_neg hfit]
        by_cases hcur : current.isEmpty
        · rw [if_pos hcur]
          obtain ⟨gs, h1, h2⟩ := ih n parts chunk gs0 hf
          refine ⟨gs, h1, ?_⟩
          rw [h2]
          have hcn : current = [] := by simpa [List.isEmpty_iff] using hcur
          simp [hcn]
        · rw [if_neg hcur]
          obtain ⟨gs, h1, h2⟩ := ih n (parts ++ [stripCore current]) chunk
            (gs0 ++ [current]) (forall2_append_one hf rfl)
          refine ⟨gs, h1, ?_⟩
          rw [h2]
          simp

theorem seedParts_spec (text : List Char) (n : Nat) :
    ∃ gs, List.Forall₂ (fun p g => p = stripCore g) (seedParts text n) gs ∧
      gs.flatten = text := by
  obtain ⟨gs, h1, h2⟩ := splitLoop_spec (splitSeedCore [] text) n [] [] [] List.Forall₂.nil
  refine ⟨gs, h1, ?_⟩
  rw [h2, splitSeed_flatten]
  simp

/-- The non-whitespace characters of a string, in order.  If concatenating
the segments reproduced the original content up to whitespace trimmed at
segment boundaries, then `dropWs` of the joined segments would equal
`dropWs` of the original. -/
def dropWs (s : List Char) : List Char := s.filter (fun c => !(isPySpace c))

/-- Claim C5 is false as stated: reconstruction fails when a part exceeds the
budget, because the post-pass truncates it.  For `'a' * 61` with budget 60 the
single segment is `"aaaaaaaaaa..."`, which does not reproduce the original
even ignoring all whitespace. -/
theorem split_reconstruction_cex :
    ¬ (dropWs ((String.join (split_html_report (String.mk (List.replicate 61 'a')) 60)).data) =
        dropWs ((String.mk (List.replicate 61 'a')).data)) := by decide

/-- Claim C5 amended: provided every accumulated part respects the budget (so
the truncate fallback never fires), the returned segments are exactly the
parts of a partition of the input, each either taken whole (the
fits-in-one-message case) or stripped of surrounding whitespace;
concatenating the partition reproduces the input. -/
theorem split_reconstruction (s : String) (n : Nat)
    (h : ∀ p ∈ seedParts s.data n, p.length ≤ n) :
    ∃ gs : List (List Char), s.data = gs.flatten ∧
      List.Forall₂ (fun seg g => seg = stripCore g ∨ seg = g)
        ((split_html_report s n).map String.data) gs := by
  by_cases hle : s.data.length ≤ n
  · refine ⟨[s.data], by simp, ?_⟩
    have hsp : split_html_report s n = [s] := by
      simp only [split_html_report, splitCore]
      rw [if_pos hle]
      rfl
    rw [hsp]
    simp
  · obtain ⟨gs, hf, hflat⟩ := seedParts_spec s.data n
    have hne : ¬ (seedParts s.data n).isEmpty = true := by
      intro hemp
      have hpn : seedParts s.data n = [] := by simpa [List.isEmpty_iff] using hemp
      rw [hpn] at hf
      cases hf
      simp at hflat
      exact hle (by rw [hflat]; simp)
    refine ⟨gs, hflat.symm, ?_⟩
    have hmap : (split_html_report s n).map String.data = seedParts s.data n := by
      simp only [split_html_report, splitCore]
      rw [if_neg hle, if_neg hne]
      rw [List.map_map, List.map_map]
      have h2 : ∀ p ∈ seedParts s.data n,
          ((String.data ∘ String.mk) ∘ fun q => if q.length ≤ n then q else truncCore q n) p =
            id p := by
        intro p hp
        simp [Function.comp, if_pos (h p hp)]
      rw [List.map_congr_left h2, List.map_id]
    rw [hmap]
    exact List.Forall₂.imp (fun a b hab => Or.inl hab) hf

/-- Witness for the amended claim C5 at a concrete input whose single part is
trimmed of its leading whitespace. -/
theorem split_reconstruction_witness :
    (∀ p ∈ seedParts (String.data (" ab")) 2, p.length ≤ 2) ∧
    (∃ gs : List (List Char), (" ab" : String).data = gs.flatten ∧
      List.Forall₂ (fun seg g => seg = stripCore g ∨ seg = g)
        ((split_html_report (" ab") 2).map String.data) gs) :=
  ⟨by decide, split_reconstruction (" ab") 2 (by decide)⟩

end ContentBot